import Mathlib

/-!
Verification development for the NotebookLM course pipeline
(`src/parser.py` — `ContentParser`, and `src/builder.py` — `HTMLBuilder`).

The Python code is shallowly embedded over `List Char` (named `Str` below),
one definition per Python function, keeping the source's names where Lean
allows.  Python regular expressions are embedded as explicit matchers that
reproduce the leftmost-match / greedy-with-backtracking semantics of `re`
for the concrete patterns appearing in the source.  Python's `\d` and `\s`
are modelled as ASCII digits and ASCII whitespace (the inputs this program
processes are Hebrew text, emoji, digits and ASCII punctuation, for which
the two notions coincide).  File-system access is abstracted as reader
functions (`Nat → Option Str` for chapter override files, `String →
Option Str` for raw fragment files); a reader returning `none` models a
missing file.  `print` logging is not modelled; the data it reports (the
list of unfilled placeholders found by `re.findall`) is returned alongside
the build result.
-/

/-- Character strings, modelled as lists of Unicode scalar values (this
matches Python `str`, where `len` counts code points). -/
abbrev Str := List Char

/-- Python `str.strip()` whitespace class, restricted to ASCII:
space, tab, newline, carriage return, vertical tab, form feed. -/
def isSpc (c : Char) : Bool :=
  c = ' ' || c = '\t' || c = '\n' || c = '\r' || c = '\x0b' || c = '\x0c'

/-- Remove trailing whitespace (the tail half of Python `str.strip()`). -/
def dropTrailing (l : Str) : Str :=
  (l.reverse.dropWhile isSpc).reverse

/-- Python `str.strip()`: remove leading and trailing whitespace. -/
def stripChars (l : Str) : Str :=
  dropTrailing (l.dropWhile isSpc)

/-- Python `str.split("\n")`: split at every newline; always returns at
least one (possibly empty) piece. -/
def splitOnNl : Str → List Str
  | [] => [[]]
  | c :: rest =>
    if c = '\n' then [] :: splitOnNl rest
    else
      match splitOnNl rest with
      | [] => [[c]]
      | l :: ls => (c :: l) :: ls

/-- `leadsWith p s` holds when `p` is a prefix of `s`
(Python `str.startswith`). -/
def leadsWith : Str → Str → Bool
  | [], _ => true
  | _ :: _, [] => false
  | a :: p, b :: s => a == b && leadsWith p s

/-! ### The footnote regex `RE_FOOTNOTE`

`parser.py` line 25:
`\d{1,2}(?:,\d{1,2})*\.?(?:\.\.\.\.|\.{0,3})(?=\s|$|[,)])`,
used via `RE_FOOTNOTE.sub("", text)` in `_clean_text`.
-/

/-- The lookahead `(?=\s|$|[,)])`: next character is whitespace, a comma, a
closing parenthesis, or the string ends. -/
def lookaheadOk : Str → Bool
  | [] => true
  | c :: _ => isSpc c || c = ',' || c = ')'

/-- Length of the leading run of dots. -/
def dotRun (l : Str) : Nat := (l.takeWhile (fun c => c = '.')).length

/-- The dot part `\.?(?:\.\.\.\.|\.{0,3})` followed by the lookahead: the
backtracking engine tries dot totals 5, 4, 3, 2, 1, 0 in this order
(`\.?` greedy, then the alternation `\.\.\.\.` before `\.{0,3}` greedy)
and accepts the first total whose dots are present and whose following
character satisfies the lookahead.  Returns the number of dots consumed. -/
def tryDots (l : Str) : Option Nat :=
  let ok : Nat → Bool := fun t => decide (t ≤ dotRun l) && lookaheadOk (l.drop t)
  if ok 5 then some 5
  else if ok 4 then some 4
  else if ok 3 then some 3
  else if ok 2 then some 2
  else if ok 1 then some 1
  else if ok 0 then some 0
  else none

/-- Continue a footnote match after the leading digit group: zero or more
`,\d{1,2}` groups (greedy, two digits preferred, with backtracking into
the dot part), then the dot part.  Returns the number of characters
consumed from `l`.  The `fuel` argument only bounds the recursion depth
(each step consumes at least two characters, so `fuel = l.length` is
always enough); it is structural so that the kernel can evaluate the
definition. -/
def matchFromGroupsAux : Nat → Str → Option Nat
  | _, [] => tryDots []
  | 0, l => tryDots l
  | fuel + 1, l =>
    match l with
    | ',' :: a :: b :: r =>
      (if a.isDigit && b.isDigit then (matchFromGroupsAux fuel r).map (· + 3) else none)
      |>.orElse (fun _ =>
        if a.isDigit then (matchFromGroupsAux fuel (b :: r)).map (· + 2) else none)
      |>.orElse (fun _ => tryDots l)
    | ',' :: a :: [] =>
      (if a.isDigit then (tryDots ([] : Str)).map (· + 2) else none)
      |>.orElse (fun _ => tryDots l)
    | _ => tryDots l

/-- The comma-group-and-dots tail of a footnote match, with enough fuel. -/
def matchFromGroups (l : Str) : Option Nat := matchFromGroupsAux l.length l

/-- Try to match `RE_FOOTNOTE` at the start of `l`: `\d{1,2}` greedy (two
digits preferred), then the comma groups and the dot part.  Returns the
length of the match. -/
def matchFootnoteAt (l : Str) : Option Nat :=
  match l with
  | a :: b :: r =>
    if a.isDigit then
      (if b.isDigit then (matchFromGroups r).map (· + 2) else none)
      |>.orElse (fun _ => (matchFromGroups (b :: r)).map (· + 1))
    else none
  | [a] => if a.isDigit then (matchFromGroups []).map (· + 1) else none
  | [] => none

/-- `RE_FOOTNOTE.sub("", l)`: scan left to right; at each position replace
a match by nothing and resume after it, otherwise keep the character.
(A successful match always consumes at least the leading digit, so the
resume point is written `rest.drop (n - 1)`.) -/
def footnoteSubAux : Nat → Str → Str
  | _, [] => []
  | 0, l => l
  | fuel + 1, c :: rest =>
    match matchFootnoteAt (c :: rest) with
    | some n => footnoteSubAux fuel (rest.drop (n - 1))
    | none => c :: footnoteSubAux fuel rest

/-- `RE_FOOTNOTE.sub("", l)` with enough fuel (a successful match always
consumes at least the leading digit, so each scan step advances by at
least one character and `l.length` steps always suffice). -/
def footnoteSub (l : Str) : Str := footnoteSubAux l.length l

/-- `ContentParser._clean_text`: strip footnote markers, then
Python `str.strip()`. -/
def cleanText (s : Str) : Str := stripChars (footnoteSub s)

/-! ### Line matchers (`RE_NUMBERED_HEADER`, `RE_BULLET`, `RE_SUB_BULLET`) -/

/-- The tail `\s+(.+)$` of `RE_BULLET`/`RE_SUB_BULLET` applied after the
glyph: at least one whitespace character, then the greedy group takes the
whole remainder; when the remainder is all whitespace the greedy `\s+`
backtracks one character so the group is the last whitespace character. -/
def matchSpRest (r : Str) : Option Str :=
  let ws := r.takeWhile isSpc
  if ws.isEmpty then none
  else
    let r2 := r.drop ws.length
    if r2.isEmpty then
      if 2 ≤ ws.length then some [ws.getLastD ' '] else none
    else some r2

/-- `RE_NUMBERED_HEADER = ^\d+\.\s+(.+?)[\s]*$` (matched against the
stripped line): a maximal nonempty digit run, a dot, at least one
whitespace character, then the lazy group captures the remainder up to
the trailing whitespace run (which must leave the group nonempty).
Returns the captured group. -/
def matchNumberedHeader (s : Str) : Option Str :=
  let ds := s.takeWhile Char.isDigit
  if ds.isEmpty then none
  else
    match s.drop ds.length with
    | '.' :: r1 =>
      let ws := r1.takeWhile isSpc
      if ws.isEmpty then none
      else
        let r2 := r1.drop ws.length
        if r2.isEmpty then
          if 2 ≤ ws.length then some [ws.getLastD ' '] else none
        else some (dropTrailing r2)
    | _ => none

/-- `RE_BULLET = ^[•●]\s+(.+)$` (matched against the stripped line).
Returns the captured group. -/
def matchBullet (s : Str) : Option Str :=
  match s with
  | c :: r => if c = '•' || c = '●' then matchSpRest r else none
  | [] => none

/-- `RE_SUB_BULLET = ^\s+[◦○]\s+(.+)$` (matched against the original,
unstripped line — the leading indentation is required).  Returns the
captured group. -/
def matchSubBullet (line : Str) : Option Str :=
  let ws := line.takeWhile isSpc
  if ws.isEmpty then none
  else
    match line.drop ws.length with
    | c :: r => if c = '◦' || c = '○' then matchSpRest r else none
    | [] => none

/-- `ContentParser._has_emoji`: some character has a code point above
`0x1F000`. -/
def hasEmoji (s : Str) : Bool := s.any (fun c => 0x1F000 < c.toNat)

/-! ### Tip triggers (`TIP_TRIGGERS`, `_detect_tip_type`) -/

/-- `ContentParser.TIP_TRIGGERS`, in Python dict insertion order
(pro, warning, danger, info), each with its ordered phrase list. -/
def tipTriggers : List (String × List String) :=
  [ ("pro", ["טיפ", "הטיפ של", "טיפ מקצועי", "טיפ של"])
  , ("warning", ["אזהרה", "זהירות", "שימו לב"])
  , ("danger", ["סכנה", "סכנת חיים", "חוק ברזל"])
  , ("info", ["הערה", "חשוב", "מידע"]) ]

/-- One trigger phrase matches when the text starts with the phrase
followed immediately by `:` or by a space. -/
def triggerHits (t : String) (s : Str) : Bool :=
  leadsWith (t.toList ++ [':']) s || leadsWith (t.toList ++ [' ']) s

/-- Iterate the trigger table in order; first matching variant wins. -/
def detectIn (s : Str) : List (String × List String) → Option String
  | [] => none
  | (v, trigs) :: rest =>
    if trigs.any (fun t => triggerHits t s) then some v else detectIn s rest

/-- `ContentParser._detect_tip_type`. -/
def detectTipType (s : Str) : Option String := detectIn s tipTriggers

/-! ### Parsed sections (`Section` dataclass) and the parse state machine -/

/-- A bullet-list entry: Python stores either a plain string or a tuple
`(previous entry, list of sub-bullet strings)`.  The tuple's first
component is whatever value was last in the accumulator, so the type is
recursive exactly as in Python (the recursive case is never produced by
`parse`, which is proved below, but the data type is faithful). -/
inductive Entry where
  | str (s : Str)
  | pair (v : Entry) (subs : List Str)
deriving DecidableEq

/-- The `Section` dataclass: `type` is one of the tag strings used by the
source (`"h3"`, `"paragraph"`, `"bullet_list"`, `"tip_box"`), `meta` is
the attribute dict modelled as an association list. -/
structure Section where
  type : String
  content : Str
  items : List Entry
  meta : List (String × String)
deriving DecidableEq

/-- The loop-local state of `ContentParser.parse`: emitted sections, the
bullet accumulator `current_bullets`, the pending sub-bullet accumulator
`current_sub_bullets`, and the `in_bullet_list` flag. -/
structure PState where
  sections : List Section
  bullets : List Entry
  subs : List Str
  inList : Bool
deriving DecidableEq

/-- `current_bullets[-1] = (current_bullets[-1], list(current_sub_bullets))`
(the attach step in the top-level-bullet branch of `parse`): replace the
last entry by the pair of it and the pending sub-bullets. -/
def attachPair (subs : List Str) : List Entry → List Entry
  | [] => []
  | [e] => [.pair e subs]
  | e :: es => e :: attachPair subs es

/-- The attach step in `_flush_bullets`: same, but guarded by
`isinstance(last, str)` — a non-string last entry is left unchanged. -/
def attachIfStr (subs : List Str) : List Entry → List Entry
  | [] => []
  | [.str s] => [.pair (.str s) subs]
  | [e] => [e]
  | e :: es => e :: attachIfStr subs es

/-- `ContentParser._flush_bullets`: attach any pending sub-bullets to the
last bullet (when it is a plain string), then emit a `bullet_list`
section when the accumulator is non-empty. -/
def flushBullets (sections : List Section) (bullets : List Entry) (subs : List Str) :
    List Section :=
  let bullets2 := if !subs.isEmpty && !bullets.isEmpty then attachIfStr subs bullets else bullets
  if bullets2.isEmpty then sections
  else sections ++ [⟨"bullet_list", [], bullets2, []⟩]

/-- Flush the bullet run and reset the accumulators and the flag
(the three statements that always follow a `_flush_bullets` call inside
the loop of `parse`). -/
def flushState (st : PState) : PState :=
  ⟨flushBullets st.sections st.bullets st.subs, [], [], false⟩

/-- `if in_bullet_list: flush` — the state after conditionally flushing. -/
def flushIfIn (st : PState) : PState :=
  if st.inList then flushState st else st

/-- The top-level-bullet, tip-trigger and default-paragraph checks of the
loop body (reached when the line is non-blank, is not an emoji-carrying
numbered header, and is not a sub-bullet). -/
def processTail (st : PState) (stripped : Str) : PState :=
  match matchBullet stripped with
  | some g =>
    let doAttach := !st.subs.isEmpty && !st.bullets.isEmpty
    { st with
      bullets := (if doAttach then attachPair st.subs st.bullets else st.bullets)
                 ++ [.str (cleanText g)]
      subs := if doAttach then [] else st.subs
      inList := true }
  | none =>
    match detectTipType stripped with
    | some v =>
      let st2 := flushIfIn st
      { st2 with sections := st2.sections ++ [⟨"tip_box", cleanText stripped, [], [("variant", v)]⟩] }
    | none =>
      let st2 := flushIfIn st
      { st2 with sections := st2.sections ++ [⟨"paragraph", cleanText stripped, [], []⟩] }

/-- One iteration of the loop of `ContentParser.parse` over one line. -/
def processLine (st : PState) (line : Str) : PState :=
  let stripped := stripChars line
  if stripped.isEmpty then
    flushIfIn st
  else
    match matchNumberedHeader stripped with
    | some g =>
      if hasEmoji stripped then
        let st2 := flushIfIn st
        { st2 with sections := st2.sections ++ [⟨"h3", cleanText g, [], []⟩] }
      else
        match matchSubBullet line with
        | some g2 => { st with subs := st.subs ++ [cleanText g2], inList := true }
        | none => processTail st stripped
    | none =>
      match matchSubBullet line with
      | some g2 => { st with subs := st.subs ++ [cleanText g2], inList := true }
      | none => processTail st stripped

/-- `ContentParser.parse`: strip the input, split into lines, run the
line loop, and flush any still-open bullet run at the end. -/
def parse (raw : Str) : List Section :=
  let lines := splitOnNl (stripChars raw)
  let final := lines.foldl processLine ⟨[], [], [], false⟩
  if final.inList then flushBullets final.sections final.bullets final.subs
  else final.sections

/-! ### Text enhancement (`builder._enhance_text`)

`RE_BOLD_MARKERS = \*\*(.+?)\*\*` replaced by `<strong>\1</strong>`,
then `RE_PHONE = (05[0-9]-?\d{3}-?\d{4})` replaced by
`<a href="tel:\1">\1</a>`.
-/

/-- The lazy group of `\*\*(.+?)\*\*` after an opening `**`: the shortest
nonempty newline-free run followed by `**`.  Returns the group and the
rest after the closing `**`. -/
def boldGroup : Str → Option (Str × Str)
  | [] => none
  | c :: rest =>
    if c = '\n' then none
    else
      match rest with
      | '*' :: '*' :: r2 => some ([c], r2)
      | _ => (boldGroup rest).map (fun gr => (c :: gr.1, gr.2))

/-- `RE_BOLD_MARKERS.sub(r"<strong>\1</strong>", l)`: scan left to right,
replacing each match and resuming after it.  `fuel = l.length` bounds the
scan (every step consumes at least one character). -/
def boldSubAux : Nat → Str → Str
  | _, [] => []
  | 0, l => l
  | fuel + 1, c :: rest =>
    match c :: rest with
    | '*' :: '*' :: r =>
      match boldGroup r with
      | some (g, r2) =>
        "<strong>".toList ++ g ++ "</strong>".toList ++ boldSubAux fuel r2
      | none => c :: boldSubAux fuel rest
    | _ => c :: boldSubAux fuel rest

/-- The emphasis-marker conversion of `_enhance_text`. -/
def boldSub (l : Str) : Str := boldSubAux l.length l

/-- Exactly `n` ASCII digits; returns them and the rest. -/
def takeDigitsN : Nat → Str → Option (Str × Str)
  | 0, l => some ([], l)
  | _ + 1, [] => none
  | n + 1, c :: r =>
    if c.isDigit then (takeDigitsN n r).map (fun dr => (c :: dr.1, dr.2)) else none

/-- Try to match `RE_PHONE = 05[0-9]-?\d{3}-?\d{4}` at the start of `l`
(each optional dash is taken greedily; declining it can never help, since
`\d` does not match a dash).  Returns the matched text and the rest. -/
def phoneAt (l : Str) : Option (Str × Str) :=
  match l with
  | '0' :: '5' :: c :: r =>
    if c.isDigit then
      let d1 : Str × Str := match r with | '-' :: r1 => (['-'], r1) | _ => ([], r)
      match takeDigitsN 3 d1.2 with
      | none => none
      | some (g3, r2) =>
        let d2 : Str × Str := match r2 with | '-' :: r3 => (['-'], r3) | _ => ([], r2)
        match takeDigitsN 4 d2.2 with
        | none => none
        | some (g4, r4) => some ('0' :: '5' :: c :: (d1.1 ++ g3 ++ d2.1 ++ g4), r4)
    else none
  | _ => none

/-- `RE_PHONE.sub(r'<a href="tel:\1">\1</a>', l)`, scanning as above. -/
def phoneSubAux : Nat → Str → Str
  | _, [] => []
  | 0, l => l
  | fuel + 1, c :: rest =>
    match phoneAt (c :: rest) with
    | some (m, r) =>
      "<a href=\"tel:".toList ++ m ++ "\">".toList ++ m ++ "</a>".toList ++ phoneSubAux fuel r
    | none => c :: phoneSubAux fuel rest

/-- The phone-number linkification of `_enhance_text`. -/
def phoneSub (l : Str) : Str := phoneSubAux l.length l

/-- `builder._enhance_text`: bold conversion first, then phone links. -/
def enhanceText (l : Str) : Str := phoneSub (boldSub l)

/-! ### Tip-box rendering (`HTMLBuilder.TIP_CONFIG`, `_build_tip_box`) -/

/-- One `TIP_CONFIG` row: icon, localized label, css class. -/
structure TipCfg where
  icon : Str
  label : Str
  css : Str
deriving DecidableEq

/-- The `info` row of `TIP_CONFIG` (also the fallback row). -/
def infoCfg : TipCfg := ⟨"ℹ️".toList, "מידע".toList, "info".toList⟩

/-- `HTMLBuilder.TIP_CONFIG`, in source order. -/
def tipConfig : List (String × TipCfg) :=
  [ ("pro", ⟨"💡".toList, "טיפ מקצועי".toList, "pro".toList⟩)
  , ("info", infoCfg)
  , ("warning", ⟨"⚡".toList, "אזהרה".toList, "warning".toList⟩)
  , ("danger", ⟨"🛑".toList, "סכנה".toList, "danger".toList⟩) ]

/-- `TIP_CONFIG.get(variant, TIP_CONFIG["info"])`. -/
def getTipCfg (v : String) : TipCfg := (tipConfig.lookup v).getD infoCfg

/-- `HTMLBuilder._build_tip_box`. -/
def buildTipBox (content : Str) (variant : String) : Str :=
  let cfg := getTipCfg variant
  "<div class=\"tip-box ".toList ++ cfg.css ++ "\">\n".toList
    ++ "<div class=\"tip-label\"><span class=\"tip-icon\">".toList ++ cfg.icon
    ++ "</span> ".toList ++ cfg.label ++ "</div>\n".toList
    ++ "<p>".toList ++ enhanceText content ++ "</p>\n".toList
    ++ "</div>".toList

/-! ### Section rendering (`_build_list`, `_sections_to_html`) -/

/-- One list item of `HTMLBuilder._build_list`.  A `pair` whose first
component is itself a pair makes Python pass a tuple to `_enhance_text`,
which raises `TypeError`; that failure is modelled as `none` (it is
proved below that `parse` never produces such an entry). -/
def entryHtml : Entry → Option Str
  | .str s => some ("<li>".toList ++ enhanceText s ++ "</li>\n".toList)
  | .pair (.str t) subs =>
    some ("<li>".toList ++ enhanceText t ++ "\n<ul>\n".toList
      ++ (subs.map (fun sub => "<li>".toList ++ enhanceText sub ++ "</li>\n".toList)).flatten
      ++ "</ul>\n</li>\n".toList)
  | .pair (.pair _ _) _ => none

/-- All items of `_build_list`, failing if any item fails. -/
def entriesHtml : List Entry → Option (List Str)
  | [] => some []
  | e :: es =>
    match entryHtml e with
    | none => none
    | some h => (entriesHtml es).map (h :: ·)

/-- `HTMLBuilder._build_list`. -/
def buildListHtml (items : List Entry) : Option Str :=
  (entriesHtml items).map (fun ps => "<ul>\n".toList ++ ps.flatten ++ "</ul>".toList)

/-- One section of `_sections_to_html`: `some none` means the section
type is none of the four rendered kinds and contributes nothing (the
Python loop has no else branch); outer `none` models the `TypeError`
failure of `_build_list`. -/
def sectionHtml (sec : Section) : Option (Option Str) :=
  if sec.type = "h3" then
    some (some ("<h3>".toList ++ enhanceText sec.content ++ "</h3>".toList))
  else if sec.type = "paragraph" then
    some (some ("<p>".toList ++ enhanceText sec.content ++ "</p>".toList))
  else if sec.type = "bullet_list" then
    (buildListHtml sec.items).map some
  else if sec.type = "tip_box" then
    some (some (buildTipBox sec.content ((sec.meta.lookup "variant").getD "info")))
  else some none

/-- The `parts` list accumulated by `_sections_to_html`. -/
def sectionsParts : List Section → Option (List Str)
  | [] => some []
  | sec :: rest =>
    match sectionHtml sec with
    | none => none
    | some none => sectionsParts rest
    | some (some h) => (sectionsParts rest).map (h :: ·)

/-- `HTMLBuilder._sections_to_html`: the parts joined by newlines. -/
def sectionsToHtml (secs : List Section) : Option Str :=
  (sectionsParts secs).map (List.intercalate "\n".toList)

/-! ### Chapter resolution and template assembly (`HTMLBuilder.build`,
`_generate_from_raw`) -/

/-- A chapter configuration entry: `id`, `title`, and the `questions`
list of fragment identifiers. -/
structure Chapter where
  id : Nat
  title : Str
  questions : List String

/-- Decimal digits of `n`, most significant first (the text produced by a
Python f-string for an `int`); fuel-structural, `fuel = n` suffices. -/
def natCharsAux : Nat → Nat → Str
  | 0, _ => []
  | fuel + 1, n => if n = 0 then [] else natCharsAux fuel (n / 10) ++ [Char.ofNat (48 + n % 10)]

/-- Decimal representation of a chapter id. -/
def natChars (n : Nat) : Str := if n = 0 then ['0'] else natCharsAux n n

/-- The placeholder token `{{CHAPTER_<id>_CONTENT}}` for one chapter. -/
def placeholderOf (id : Nat) : Str :=
  "\x7b\x7bCHAPTER_".toList ++ natChars id ++ "_CONTENT\x7d\x7d".toList

/-- The `parts` loop of `_generate_from_raw`: for each question id, a
missing raw file is skipped (logged in Python), an existing one is
parsed and rendered. -/
def fragmentsParts (fragment : String → Option Str) : List String → Option (List Str)
  | [] => some []
  | q :: qs =>
    match fragment q with
    | none => fragmentsParts fragment qs
    | some raw =>
      match sectionsToHtml (parse raw) with
      | none => none
      | some h => (fragmentsParts fragment qs).map (h :: ·)

/-- The divider joining rendered fragments of one chapter. -/
def chapterDivider : Str := "\n<hr class='chapter-divider'>\n".toList

/-- The localized placeholder notice used when no fragment contributed. -/
def comingSoonNotice : Str := "<p>תוכן בקרוב...</p>".toList

/-- `HTMLBuilder._generate_from_raw`. -/
def generateFromRaw (fragment : String → Option Str) (ch : Chapter) : Option Str :=
  (fragmentsParts fragment ch.questions).map
    (fun parts => if parts.isEmpty then comingSoonNotice else List.intercalate chapterDivider parts)

/-- The per-chapter content resolution inside `HTMLBuilder.build`:
priority 1 is the pre-built chapter file `ch<id>.html` (used verbatim),
priority 2 is `_generate_from_raw`. -/
def resolveContent (chapterFile : Nat → Option Str) (fragment : String → Option Str)
    (ch : Chapter) : Option Str :=
  match chapterFile ch.id with
  | some t => some t
  | none => generateFromRaw fragment ch

/-- Python `str.replace(p, r)` for a nonempty pattern `p`: scan left to
right, replacing every non-overlapping occurrence (`build` only calls
this with the nonempty placeholder token as pattern). -/
def replaceAux : Nat → Str → Str → Str → Str
  | _, _, _, [] => []
  | 0, _, _, s => s
  | fuel + 1, p, r, c :: rest =>
    if leadsWith p (c :: rest) then r ++ replaceAux fuel p r (rest.drop (p.length - 1))
    else c :: replaceAux fuel p r rest

/-- Python `str.replace` (nonempty pattern), with enough fuel. -/
def replaceList (p r s : Str) : Str :=
  match p with
  | [] => s
  | _ => replaceAux s.length p r s

/-- Try to match `\{\{CHAPTER_\d+_CONTENT\}\}` at the start of `l`.
Returns the matched token and the rest after it. -/
def placeholderAt (l : Str) : Option (Str × Str) :=
  if leadsWith ("\x7b\x7bCHAPTER_".toList) l then
    let after := l.drop 10
    let ds := after.takeWhile Char.isDigit
    if ds.isEmpty then none
    else
      let r := after.drop ds.length
      if leadsWith ("_CONTENT\x7d\x7d".toList) r then
        some ("\x7b\x7bCHAPTER_".toList ++ ds ++ "_CONTENT\x7d\x7d".toList, r.drop 10)
      else none
  else none

/-- `re.findall(r"\{\{CHAPTER_\d+_CONTENT\}\}", l)`: all non-overlapping
placeholder-shaped tokens, left to right. -/
def findPlaceholdersAux : Nat → Str → List Str
  | _, [] => []
  | 0, _ => []
  | fuel + 1, c :: rest =>
    match placeholderAt (c :: rest) with
    | some (m, r) => m :: findPlaceholdersAux fuel r
    | none => findPlaceholdersAux fuel rest

/-- The remaining-placeholder scan at the end of `build`. -/
def findPlaceholders (l : Str) : List Str := findPlaceholdersAux l.length l

/-- The chapter loop of `HTMLBuilder.build`: resolve each chapter's
content and substitute it for every occurrence of the chapter's
placeholder token. -/
def substChapters (chapterFile : Nat → Option Str) (fragment : String → Option Str) :
    Str → List Chapter → Option Str
  | html, [] => some html
  | html, ch :: rest =>
    match resolveContent chapterFile fragment ch with
    | none => none
    | some content =>
      substChapters chapterFile fragment (replaceList (placeholderOf ch.id) content html) rest

/-- `HTMLBuilder.build`: substitute all chapters into the template, then
scan for unfilled placeholders (reported as a warning in Python) and
return the assembled document together with that warning list and the
document's length (`len(html)` is the value `build` returns; the
document itself is written to the output file). -/
def build (template : Str) (chapters : List Chapter) (chapterFile : Nat → Option Str)
    (fragment : String → Option Str) : Option (Str × List Str × Nat) :=
  (substChapters chapterFile fragment template chapters).map
    (fun html => (html, findPlaceholders html, html.length))

/-! ## Claim theorems -/

/-- C3, counterexample: on the input `"• A\n  ◦ A1\n  ◦ A2\n• B\n"`, no
section of the parse result has the items sequence
`[("A", ["A1","A2"]), "B"]` claimed by the specification (so the result
is not that single `BulletList`). -/
theorem c3_counterexample :
    (parse "• A\n  ◦ A1\n  ◦ A2\n• B\n".toList).map Section.items ≠
      [[.pair (.str "A".toList) ["A1".toList, "A2".toList], .str "B".toList]] := by
  decide

/-- C3, amended: for the input `"• A\n  ◦ A1\n  ◦ A2\n• B\n"`, `parse`
returns exactly one section, a `bullet_list` whose items sequence is
`[("A", ["A","A"]), "B"]` — text cleaning treats the trailing digit of
`"A1"` and `"A2"` as a footnote marker at end of string and strips it. -/
theorem c3_amended :
    parse "• A\n  ◦ A1\n  ◦ A2\n• B\n".toList =
      [⟨"bullet_list", [], [.pair (.str "A".toList) ["A".toList, "A".toList],
        .str "B".toList], []⟩] := by
  decide

/-- C2, counterexample: the bare one-digit number in `"x 5 y"` is not
followed by any ellipsis-like punctuation run, yet cleaning removes it
(the regex's dot run may be empty), contradicting the claim that such a
number is left unchanged. -/
theorem c2_counterexample :
    cleanText "x 5 y".toList = "x  y".toList ∧
      "x  y".toList ≠ "x 5 y".toList := by
  constructor
  · decide
  · decide

/-- C2, amended: cleaning removes a one- or two-digit number followed by
a possibly empty dot run at a word boundary (whitespace, end of string,
`,` or `)`): a bare number at a word boundary is removed exactly like one
carrying an ellipsis, while a number followed by a non-boundary character
is left unchanged. -/
theorem c2_amended :
    ∀ n : Nat, n < 100 →
      cleanText ("x ".toList ++ natChars n ++ " y".toList) = "x  y".toList ∧
      cleanText ("x ".toList ++ natChars n ++ "... y".toList) = "x  y".toList ∧
      cleanText ("x ".toList ++ natChars n ++ "q".toList) =
        "x ".toList ++ natChars n ++ "q".toList := by
  decide

/-- C2, witness: the amended statement instantiated at the two-digit
number 57. -/
theorem c2_amended_witness :
    cleanText ("x ".toList ++ natChars 57 ++ " y".toList) = "x  y".toList ∧
      cleanText ("x ".toList ++ natChars 57 ++ "... y".toList) = "x  y".toList ∧
      cleanText ("x ".toList ++ natChars 57 ++ "q".toList) =
        "x ".toList ++ natChars 57 ++ "q".toList :=
  c2_amended 57 (by decide)

/-- A variant key outside the four known rows is absent from
`TIP_CONFIG`. -/
theorem tipConfig_lookup_none (v : String)
    (h : v ∉ ["pro", "info", "warning", "danger"]) :
    tipConfig.lookup v = none := by
  simp only [List.mem_cons, List.not_mem_nil, or_false, not_or] at h
  obtain ⟨h1, h2, h3, h4⟩ := h
  have e1 : (v == "pro") = false := beq_eq_false_iff_ne.mpr h1
  have e2 : (v == "info") = false := beq_eq_false_iff_ne.mpr h2
  have e3 : (v == "warning") = false := beq_eq_false_iff_ne.mpr h3
  have e4 : (v == "danger") = false := beq_eq_false_iff_ne.mpr h4
  simp [tipConfig, List.lookup, e1, e2, e3, e4]

/-- A tip box built from the `info` row has the `info` css class, icon
and label in its markup. -/
theorem tipbox_info_shape (mid : Str) :
    "<div class=\"tip-box ".toList ++ infoCfg.css ++ "\">\n".toList
      ++ "<div class=\"tip-label\"><span class=\"tip-icon\">".toList ++ infoCfg.icon
      ++ "</span> ".toList ++ infoCfg.label ++ "</div>\n".toList
      ++ "<p>".toList ++ mid ++ "</p>\n".toList ++ "</div>".toList
    = "<div class=\"tip-box info\">\n<div class=\"tip-label\"><span class=\"tip-icon\">ℹ️</span> מידע</div>\n<p>".toList
      ++ mid ++ "</p>\n</div>".toList := by
  have hp : ("<div class=\"tip-box ".toList ++ (infoCfg.css ++ ("\">\n".toList
      ++ ("<div class=\"tip-label\"><span class=\"tip-icon\">".toList ++ (infoCfg.icon
      ++ ("</span> ".toList ++ (infoCfg.label ++ ("</div>\n".toList
      ++ "<p>".toList)))))))) =
      "<div class=\"tip-box info\">\n<div class=\"tip-label\"><span class=\"tip-icon\">ℹ️</span> מידע</div>\n<p>".toList := by
    decide
  have hs : (("</p>\n".toList ++ "</div>".toList : Str)) = "</p>\n</div>".toList := by decide
  calc
    "<div class=\"tip-box ".toList ++ infoCfg.css ++ "\">\n".toList
        ++ "<div class=\"tip-label\"><span class=\"tip-icon\">".toList ++ infoCfg.icon
        ++ "</span> ".toList ++ infoCfg.label ++ "</div>\n".toList
        ++ "<p>".toList ++ mid ++ "</p>\n".toList ++ "</div>".toList
      = ("<div class=\"tip-box ".toList ++ (infoCfg.css ++ ("\">\n".toList
        ++ ("<div class=\"tip-label\"><span class=\"tip-icon\">".toList ++ (infoCfg.icon
        ++ ("</span> ".toList ++ (infoCfg.label ++ ("</div>\n".toList
        ++ "<p>".toList))))))))
        ++ (mid ++ ("</p>\n".toList ++ "</div>".toList)) := by
      simp [List.append_assoc]
    _ = "<div class=\"tip-box info\">\n<div class=\"tip-label\"><span class=\"tip-icon\">ℹ️</span> מידע</div>\n<p>".toList
        ++ mid ++ "</p>\n</div>".toList := by
      rw [hp, hs, List.append_assoc]

/-- C9: a `tip_box` section whose `variant` attribute is missing or is
not one of the four known tip variants renders, without failing, to the
`info` variant's markup — its css class `info`, icon `ℹ️` and localized
label `מידע`. -/
theorem c9_tip_box_fallback (content : Str) (items : List Entry)
    (meta : List (String × String))
    (h : ∀ v, meta.lookup "variant" = some v → v ∉ ["pro", "info", "warning", "danger"]) :
    sectionsToHtml [⟨"tip_box", content, items, meta⟩] =
      some ("<div class=\"tip-box info\">\n<div class=\"tip-label\"><span class=\"tip-icon\">ℹ️</span> מידע</div>\n<p>".toList
        ++ enhanceText content ++ "</p>\n</div>".toList) := by
  have hcfg : getTipCfg ((meta.lookup "variant").getD "info") = infoCfg := by
    cases hv : meta.lookup "variant" with
    | none => simp only [Option.getD_none]; decide
    | some v =>
      simp only [Option.getD_some]
      simp [getTipCfg, tipConfig_lookup_none v (h v hv)]
  have h1 : sectionsToHtml [⟨"tip_box", content, items, meta⟩] =
      some (buildTipBox content ((meta.lookup "variant").getD "info") ++ []) := rfl
  rw [h1, List.append_nil]
  simp only [buildTipBox, hcfg]
  rw [tipbox_info_shape]

/-- C9, witness: a `tip_box` with the unknown variant `"bogus"` renders
to the `info` markup. -/
theorem c9_tip_box_fallback_witness :
    sectionsToHtml [⟨"tip_box", "hello".toList, [], [("variant", "bogus")]⟩] =
      some ("<div class=\"tip-box info\">\n<div class=\"tip-label\"><span class=\"tip-icon\">ℹ️</span> מידע</div>\n<p>".toList
        ++ enhanceText "hello".toList ++ "</p>\n</div>".toList) :=
  c9_tip_box_fallback "hello".toList [] [("variant", "bogus")] (by decide)

/-! ## Shared lemmas about stripping, splitting and the line matchers -/

/-- Applying `dropWhile` twice is the same as applying it once. -/
theorem dropWhile_idem (p : Char → Bool) (l : Str) :
    (l.dropWhile p).dropWhile p = l.dropWhile p := by
  induction l with
  | nil => rfl
  | cons c t ih => by_cases h : p c <;> simp [List.dropWhile_cons, h, ih]

/-- Dropping trailing whitespace leaves a prefix of the list. -/
theorem dropTrailing_append (l : Str) :
    dropTrailing l ++ (l.reverse.takeWhile isSpc).reverse = l := by
  have h := List.takeWhile_append_dropWhile isSpc l.reverse
  have h2 := congrArg List.reverse h
  rw [List.reverse_append] at h2
  simpa [dropTrailing] using h2

/-- The head of a nonempty `dropWhile` result fails the predicate. -/
theorem dropWhile_head_false (p : Char → Bool) (l : Str) (c : Char) (t : Str)
    (h : l.dropWhile p = c :: t) : p c = false := by
  have := List.head?_dropWhile_not p l
  rw [h] at this
  simpa using this

/-- The stripped list starts with a non-whitespace character. -/
theorem stripChars_head_false (l : Str) (c : Char) (t : Str)
    (h : stripChars l = c :: t) : isSpc c = false := by
  obtain ⟨w, hw⟩ : ∃ w, l.dropWhile isSpc = (c :: t) ++ w := by
    refine ⟨((l.dropWhile isSpc).reverse.takeWhile isSpc).reverse, ?_⟩
    have := dropTrailing_append (l.dropWhile isSpc)
    rw [show dropTrailing (l.dropWhile isSpc) = c :: t from h] at this
    exact this.symm
  exact dropWhile_head_false isSpc l c (t ++ w) (by simpa using hw)

/-- `dropTrailing` is idempotent. -/
theorem dropTrailing_idem (l : Str) : dropTrailing (dropTrailing l) = dropTrailing l := by
  simp [dropTrailing, dropWhile_idem]

/-- Python `strip` is idempotent. -/
theorem stripChars_idem (l : Str) : stripChars (stripChars l) = stripChars l := by
  cases h : stripChars l with
  | nil => simp [stripChars, dropTrailing]
  | cons c t =>
    have hc := stripChars_head_false l c t h
    have h1 : (c :: t).dropWhile isSpc = c :: t := by
      simp [List.dropWhile_cons, hc]
    have h2 : dropTrailing (c :: t) = c :: t := by
      have : dropTrailing (stripChars l) = stripChars l := by
        simp [stripChars, dropTrailing_idem]
      rwa [h] at this
    calc stripChars (c :: t) = dropTrailing (c :: t) := by rw [stripChars, h1]
      _ = c :: t := h2

/-- Every character of the stripped list occurs in the original list. -/
theorem mem_of_mem_stripChars (l : Str) (c : Char) (h : c ∈ stripChars l) : c ∈ l := by
  have h1 : c ∈ l.dropWhile isSpc := by
    have := dropTrailing_append (l.dropWhile isSpc)
    rw [← this]
    exact List.mem_append_left _ h
  have h2 := List.takeWhile_append_dropWhile isSpc l
  rw [← h2]
  exact List.mem_append_right _ h1

/-- Splitting a newline-free list yields the single piece. -/
theorem splitOnNl_single (l : Str) (h : ¬ '\n' ∈ l) : splitOnNl l = [l] := by
  induction l with
  | nil => rfl
  | cons c t ih =>
    have hc : ¬ c = '\n' := fun e => h (e ▸ List.mem_cons_self c t)
    have ht : ¬ '\n' ∈ t := fun m => h (List.mem_cons_of_mem c m)
    simp [splitOnNl, hc, ih ht]

/-- Feeding `parse` a single newline-free line amounts to one
`processLine` step from the initial state followed by the final flush. -/
theorem parse_single (l : Str) (h : ¬ '\n' ∈ l) :
    parse l =
      (let st := processLine ⟨[], [], [], false⟩ (stripChars l)
       if st.inList then flushBullets st.sections st.bullets st.subs else st.sections) := by
  have hs : ¬ '\n' ∈ stripChars l := fun m => h (mem_of_mem_stripChars l '\n' m)
  simp only [parse, splitOnNl_single (stripChars l) hs, List.foldl_cons, List.foldl_nil]

/-- A successful numbered-header match means the line starts with an
ASCII digit. -/
theorem matchNumberedHeader_head (s g : Str) (h : matchNumberedHeader s = some g) :
    ∃ c t, s = c :: t ∧ c.isDigit = true := by
  cases s with
  | nil => simp [matchNumberedHeader] at h
  | cons c t =>
    by_cases hc : c.isDigit
    · exact ⟨c, t, rfl, hc⟩
    · simp [matchNumberedHeader, List.takeWhile_cons,
        show c.isDigit = false from Bool.of_not_eq_true hc] at h

/-- A successful bullet match means the line starts with a bullet glyph. -/
theorem matchBullet_head (s g : Str) (h : matchBullet s = some g) :
    ∃ c t, s = c :: t ∧ (c = '•' ∨ c = '●') := by
  cases s with
  | nil => simp [matchBullet] at h
  | cons c t =>
    by_cases hc : c = '•' ∨ c = '●'
    · exact ⟨c, t, rfl, hc⟩
    · push_neg at hc
      simp [matchBullet, hc.1, hc.2] at h

/-- A line whose first character is not whitespace is not a sub-bullet. -/
theorem matchSubBullet_none_of_head (c : Char) (t : Str) (h : isSpc c = false) :
    matchSubBullet (c :: t) = none := by
  simp [matchSubBullet, List.takeWhile_cons, h]

/-- A successful sub-bullet match means the line starts with whitespace. -/
theorem matchSubBullet_head (s g : Str) (h : matchSubBullet s = some g) :
    ∃ c t, s = c :: t ∧ isSpc c = true := by
  cases s with
  | nil => simp [matchSubBullet] at h
  | cons c t =>
    by_cases hc : isSpc c
    · exact ⟨c, t, rfl, hc⟩
    · rw [matchSubBullet_none_of_head c t (Bool.of_not_eq_true hc)] at h
      exact absurd h (by simp)

/-- The first characters of all trigger phrases in `TIP_TRIGGERS`. -/
def triggerHeads : List Char := ['ט', 'ה', 'א', 'ז', 'ש', 'ס', 'ח', 'מ']

/-- A line whose first character heads no trigger phrase fires no tip
trigger. -/
theorem detectTip_none_of_head (c : Char) (t : Str)
    (h : ∀ x ∈ triggerHeads, x ≠ c) :
    detectTipType (c :: t) = none := by
  have e1 : ('ט' == c) = false := beq_eq_false_iff_ne.mpr (h 'ט' (by decide))
  have e2 : ('ה' == c) = false := beq_eq_false_iff_ne.mpr (h 'ה' (by decide))
  have e3 : ('א' == c) = false := beq_eq_false_iff_ne.mpr (h 'א' (by decide))
  have e4 : ('ז' == c) = false := beq_eq_false_iff_ne.mpr (h 'ז' (by decide))
  have e5 : ('ש' == c) = false := beq_eq_false_iff_ne.mpr (h 'ש' (by decide))
  have e6 : ('ס' == c) = false := beq_eq_false_iff_ne.mpr (h 'ס' (by decide))
  have e7 : ('ח' == c) = false := beq_eq_false_iff_ne.mpr (h 'ח' (by decide))
  have e8 : ('מ' == c) = false := beq_eq_false_iff_ne.mpr (h 'מ' (by decide))
  have p01 : "טיפ".toList = 'ט' :: "יפ".toList := rfl
  have p02 : "הטיפ של".toList = 'ה' :: "טיפ של".toList := rfl
  have p03 : "טיפ מקצועי".toList = 'ט' :: "יפ מקצועי".toList := rfl
  have p04 : "טיפ של".toList = 'ט' :: "יפ של".toList := rfl
  have p05 : "אזהרה".toList = 'א' :: "זהרה".toList := rfl
  have p06 : "זהירות".toList = 'ז' :: "הירות".toList := rfl
  have p07 : "שימו לב".toList = 'ש' :: "ימו לב".toList := rfl
  have p08 : "סכנה".toList = 'ס' :: "כנה".toList := rfl
  have p09 : "סכנת חיים".toList = 'ס' :: "כנת חיים".toList := rfl
  have p10 : "חוק ברזל".toList = 'ח' :: "וק ברזל".toList := rfl
  have p11 : "הערה".toList = 'ה' :: "ערה".toList := rfl
  have p12 : "חשוב".toList = 'ח' :: "שוב".toList := rfl
  have p13 : "מידע".toList = 'מ' :: "ידע".toList := rfl
  simp [detectTipType, detectIn, tipTriggers, triggerHits,
    p01, p02, p03, p04, p05, p06, p07, p08, p09, p10, p11, p12, p13,
    leadsWith, e1, e2, e3, e4, e5, e6, e7, e8]

/-! ## Line classification

The loop body of `parse` classifies every line into exactly one of six
cases.  `classifyLine` names the case (with the captured data) following
the specification's case list, and `applyClass` is the corresponding
state update; the equivalence with `processLine` is proved below.
-/

/-- The six line cases of the specification, with the data each case
captures. -/
inductive LineClass where
  | blank
  | heading (g : Str)
  | subBullet (g : Str)
  | bullet (g : Str)
  | tip (v : String)
  | paragraph
deriving DecidableEq

/-- Classify one line by the priority cascade of the loop body: blank,
numbered heading with emoji, sub-bullet (on the unstripped line),
top-level bullet, tip trigger, default paragraph. -/
def classifyLine (line : Str) : LineClass :=
  let stripped := stripChars line
  if stripped.isEmpty then .blank
  else
    match matchNumberedHeader stripped, hasEmoji stripped with
    | some g, true => .heading g
    | _, _ =>
      match matchSubBullet line with
      | some g2 => .subBullet g2
      | none =>
        match matchBullet stripped with
        | some g => .bullet g
        | none =>
          match detectTipType stripped with
          | some v => .tip v
          | none => .paragraph

/-- The state update performed for each line case. -/
def applyClass (st : PState) (stripped : Str) : LineClass → PState
  | .blank => flushIfIn st
  | .heading g =>
    let st2 := flushIfIn st
    { st2 with sections := st2.sections ++ [⟨"h3", cleanText g, [], []⟩] }
  | .subBullet g2 => { st with subs := st.subs ++ [cleanText g2], inList := true }
  | .bullet g =>
    let doAttach := !st.subs.isEmpty && !st.bullets.isEmpty
    { st with
      bullets := (if doAttach then attachPair st.subs st.bullets else st.bullets)
                 ++ [.str (cleanText g)]
      subs := if doAttach then [] else st.subs
      inList := true }
  | .tip v =>
    let st2 := flushIfIn st
    { st2 with sections := st2.sections ++ [⟨"tip_box", cleanText stripped, [], [("variant", v)]⟩] }
  | .paragraph =>
    let st2 := flushIfIn st
    { st2 with sections := st2.sections ++ [⟨"paragraph", cleanText stripped, [], []⟩] }

/-- The loop body of `parse` acts on each line exactly as the update for
that line's class. -/
theorem processLine_eq_classify (st : PState) (line : Str) :
    processLine st line = applyClass st (stripChars line) (classifyLine line) := by
  simp only [processLine, classifyLine]
  by_cases h0 : (stripChars line).isEmpty
  · simp [h0, applyClass]
  · simp only [h0, if_false, Bool.false_eq_true]
    cases hm : matchNumberedHeader (stripChars line) with
    | some g =>
      cases he : hasEmoji (stripChars line) with
      | true =>
        simp [applyClass]
      | false =>
        cases hsb : matchSubBullet line with
        | some g2 => simp [applyClass]
        | none =>
          simp only [processTail]
          cases hb : matchBullet (stripChars line) with
          | some g3 => simp [applyClass]
          | none =>
            cases hd : detectTipType (stripChars line) with
            | some v => simp [applyClass]
            | none => simp [applyClass]
    | none =>
      cases hsb : matchSubBullet line with
      | some g2 => simp [applyClass]
      | none =>
        simp only [processTail]
        cases hb : matchBullet (stripChars line) with
        | some g3 => simp [applyClass]
        | none =>
          cases hd : detectTipType (stripChars line) with
          | some v => simp [applyClass]
          | none => simp [applyClass]

/-- An ASCII digit is not whitespace. -/
theorem not_spc_of_digit (c : Char) (hc : c.isDigit = true) : isSpc c = false := by
  by_cases h : isSpc c = true
  · simp only [isSpc, Bool.or_eq_true, decide_eq_true_eq] at h
    rcases h with ((((h | h) | h) | h) | h) | h <;> subst h <;> exact absurd hc (by decide)
  · exact Bool.of_not_eq_true h

/-- A line starting with an ASCII digit is not a top-level bullet. -/
theorem matchBullet_none_of_digit (c : Char) (t : Str) (hc : c.isDigit = true) :
    matchBullet (c :: t) = none := by
  have h1 : ¬ c = '•' := fun e => by subst e; exact absurd hc (by decide)
  have h2 : ¬ c = '●' := fun e => by subst e; exact absurd hc (by decide)
  simp [matchBullet, h1, h2]

/-- A line starting with an ASCII digit fires no tip trigger. -/
theorem detectTip_none_of_digit (c : Char) (t : Str) (hc : c.isDigit = true) :
    detectTipType (c :: t) = none := by
  refine detectTip_none_of_head c t (fun x hx e => ?_)
  subst e
  have h2 : ∀ y ∈ triggerHeads, y.isDigit = false := by decide
  have h3 := h2 x hx
  simp [hc] at h3

/-- C4: a line of the form `digits "." whitespace text` is emitted by
`parse` as a `h3` heading (with the cleaned captured remainder as its
text) exactly when it contains a character above the emoji threshold
`0x1F000`; without such a character the same line is a paragraph. -/
theorem c4_heading_needs_emoji (l g : Str) (hn : ¬ '\n' ∈ l)
    (hm : matchNumberedHeader (stripChars l) = some g) :
    parse l = if hasEmoji (stripChars l)
              then [⟨"h3", cleanText g, [], []⟩]
              else [⟨"paragraph", cleanText (stripChars l), [], []⟩] := by
  obtain ⟨c, t, hct, hc⟩ := matchNumberedHeader_head _ _ hm
  have hidem := stripChars_idem l
  rw [parse_single l hn]
  simp only [processLine_eq_classify]
  have hne : (stripChars l).isEmpty = false := by
    rw [hct]; rfl
  cases he : hasEmoji (stripChars l) with
  | true =>
    have hcl : classifyLine (stripChars l) = .heading g := by
      simp only [classifyLine, hidem, hne, hm, he, Bool.false_eq_true, if_false]
    rw [hcl]
    rfl
  | false =>
    have hsb : matchSubBullet (stripChars l) = none := by
      rw [hct]; exact matchSubBullet_none_of_head c t (not_spc_of_digit c hc)
    have hb : matchBullet (stripChars l) = none := by
      rw [hct]; exact matchBullet_none_of_digit c t hc
    have hd : detectTipType (stripChars l) = none := by
      rw [hct]; exact detectTip_none_of_digit c t hc
    have hcl : classifyLine (stripChars l) = .paragraph := by
      simp only [classifyLine, hidem, hne, hm, he, hsb, hb, hd, Bool.false_eq_true, if_false]
    rw [hcl]
    simp only [applyClass, flushIfIn]
    rw [hidem]
    rfl

/-- C4, witness: `"1. Intro 🏠"` (with emoji) is a heading and
`"1. Intro"` (without) is a paragraph — cleaning strips the `"1."`
of the paragraph line as a footnote-like marker. -/
theorem c4_heading_needs_emoji_witness :
    (parse "1. Intro 🏠".toList = if hasEmoji (stripChars "1. Intro 🏠".toList)
      then [⟨"h3", cleanText "Intro 🏠".toList, [], []⟩]
      else [⟨"paragraph", cleanText (stripChars "1. Intro 🏠".toList), [], []⟩]) ∧
    (parse "1. Intro".toList = if hasEmoji (stripChars "1. Intro".toList)
      then [⟨"h3", cleanText "Intro".toList, [], []⟩]
      else [⟨"paragraph", cleanText (stripChars "1. Intro".toList), [], []⟩]) :=
  ⟨c4_heading_needs_emoji "1. Intro 🏠".toList "Intro 🏠".toList (by decide) (by decide),
   c4_heading_needs_emoji "1. Intro".toList "Intro".toList (by decide) (by decide)⟩

/-- Dropping the matched head run is the same as `dropWhile`. -/
theorem dropWhile_eq_drop_len (p : Char → Bool) (l : Str) :
    l.dropWhile p = l.drop (l.takeWhile p).length := by
  induction l with
  | nil => rfl
  | cons c t ih => by_cases h : p c <;> simp [List.dropWhile_cons, List.takeWhile_cons, h, ih]

/-- A nonempty stripped line is a tail of`dropWhile isSpc` of the line. -/
theorem dropWhile_of_stripChars (l : Str) (c : Char) (t : Str)
    (h : stripChars l = c :: t) : ∃ w, l.dropWhile isSpc = c :: (t ++ w) := by
  refine ⟨((l.dropWhile isSpc).reverse.takeWhile isSpc).reverse, ?_⟩
  have h2 := dropTrailing_append (l.dropWhile isSpc)
  rw [show dropTrailing (l.dropWhile isSpc) = c :: t from h] at h2
  simpa using h2.symm

/-- A line whose first non-whitespace character is not a sub-bullet glyph
is not a sub-bullet. -/
theorem matchSubBullet_none_glyphless (line : Str) (c : Char)
    (hhead : ∃ t', line.dropWhile isSpc = c :: t')
    (h1 : ¬ c = '◦') (h2 : ¬ c = '○') : matchSubBullet line = none := by
  obtain ⟨t', ht⟩ := hhead
  by_cases hws : (line.takeWhile isSpc).isEmpty
  · simp [matchSubBullet, hws]
  · have hdrop : line.drop (line.takeWhile isSpc).length = c :: t' := by
      rw [← dropWhile_eq_drop_len]; exact ht
    simp [matchSubBullet, hws, hdrop, h1, h2]

/-- Successful leading-prefix matching pins down the head character. -/
theorem leadsWith_cons (a : Char) (p s : Str) (h : leadsWith (a :: p) s = true) :
    ∃ t, s = a :: t := by
  cases s with
  | nil => simp [leadsWith] at h
  | cons b t =>
    simp only [leadsWith, Bool.and_eq_true, beq_iff_eq] at h
    exact ⟨t, by rw [h.1]⟩

/-- A line that fires a tip trigger starts with a trigger-phrase head. -/
theorem detectTip_some_head (s : Str) (v : String) (h : detectTipType s = some v) :
    ∃ c t, s = c :: t ∧ c ∈ triggerHeads := by
  cases s with
  | nil =>
    have : detectTipType [] = none := by decide
    rw [this] at h
    exact absurd h (by simp)
  | cons c t =>
    refine ⟨c, t, rfl, ?_⟩
    by_cases hc : c ∈ triggerHeads
    · exact hc
    · rw [detectTip_none_of_head c t (fun x hx e => hc (e ▸ hx))] at h
      exact absurd h (by simp)

/-- C5: a line whose stripped text fires a tip trigger is emitted as a
`tip_box` recording the variant `_detect_tip_type` returns, and
`_detect_tip_type` checks the variants in the fixed order pro, warning,
danger, info — within each variant its phrase list in order via `any` —
returning the first variant with a matching prefix phrase, so an
earlier-priority match wins even when a later variant's phrase also
occurs in the line. -/
theorem c5_tip_priority (line : Str) (st : PState) (v : String)
    (hd : detectTipType (stripChars line) = some v) :
    processLine st line =
      (let st2 := flushIfIn st
       { st2 with sections :=
          st2.sections ++ [⟨"tip_box", cleanText (stripChars line), [], [("variant", v)]⟩] })
    ∧ ∀ s : Str, detectTipType s =
        (if ["טיפ", "הטיפ של", "טיפ מקצועי", "טיפ של"].any (fun p => triggerHits p s) then some "pro"
         else if ["אזהרה", "זהירות", "שימו לב"].any (fun p => triggerHits p s) then some "warning"
         else if ["סכנה", "סכנת חיים", "חוק ברזל"].any (fun p => triggerHits p s) then some "danger"
         else if ["הערה", "חשוב", "מידע"].any (fun p => triggerHits p s) then some "info"
         else none) := by
  constructor
  · obtain ⟨c, t, hct, hc⟩ := detectTip_some_head _ _ hd
    have hdigit : c.isDigit = false := by
      have : ∀ y ∈ triggerHeads, y.isDigit = false := by decide
      exact this c hc
    have hne : (stripChars line).isEmpty = false := by rw [hct]; rfl
    have hm : matchNumberedHeader (stripChars line) = none := by
      rw [hct]
      simp [matchNumberedHeader, List.takeWhile_cons, hdigit]
    have hsb : matchSubBullet line = none := by
      have hg1 : ¬ c = '◦' := fun e => by subst e; exact absurd hc (by decide)
      have hg2 : ¬ c = '○' := fun e => by subst e; exact absurd hc (by decide)
      refine matchSubBullet_none_glyphless line c ?_ hg1 hg2
      obtain ⟨w, hw⟩ := dropWhile_of_stripChars line c t hct
      exact ⟨t ++ w, hw⟩
    have hb : matchBullet (stripChars line) = none := by
      rw [hct]
      have hg1 : ¬ c = '•' := fun e => by subst e; exact absurd hc (by decide)
      have hg2 : ¬ c = '●' := fun e => by subst e; exact absurd hc (by decide)
      simp [matchBullet, hg1, hg2]
    have hcl : classifyLine line = .tip v := by
      simp only [classifyLine, hne, hm, hsb, hb, hd, Bool.false_eq_true, if_false]
    rw [processLine_eq_classify, hcl]
    rfl
  · intro s
    simp [detectTipType, detectIn, tipTriggers]

/-- C5, witness: the line `"טיפ: הערה"` starts with the pro phrase
`"טיפ"` and also contains the info phrase `"הערה"` later; the emitted
section is a `tip_box` with variant `pro`. -/
theorem c5_tip_priority_witness :
    processLine ⟨[], [], [], false⟩ "טיפ: הערה".toList =
      (let st2 := flushIfIn ⟨[], [], [], false⟩
       { st2 with sections :=
          st2.sections ++ [⟨"tip_box", cleanText (stripChars "טיפ: הערה".toList), [], [("variant", "pro")]⟩] })
    ∧ ∀ s : Str, detectTipType s =
        (if ["טיפ", "הטיפ של", "טיפ מקצועי", "טיפ של"].any (fun p => triggerHits p s) then some "pro"
         else if ["אזהרה", "זהירות", "שימו לב"].any (fun p => triggerHits p s) then some "warning"
         else if ["סכנה", "סכנת חיים", "חוק ברזל"].any (fun p => triggerHits p s) then some "danger"
         else if ["הערה", "חשוב", "מידע"].any (fun p => triggerHits p s) then some "info"
         else none) :=
  c5_tip_priority "טיפ: הערה".toList ⟨[], [], [], false⟩ "pro" (by decide)

/-- A line whose stripped text matches the bullet regex is classified as
a top-level bullet. -/
theorem classify_bullet (line g : Str) (hb : matchBullet (stripChars line) = some g) :
    classifyLine line = .bullet g := by
  obtain ⟨c, t, hct, hc⟩ := matchBullet_head _ _ hb
  have hne : (stripChars line).isEmpty = false := by rw [hct]; rfl
  have hdigit : c.isDigit = false := by rcases hc with e | e <;> subst e <;> decide
  have hm : matchNumberedHeader (stripChars line) = none := by
    rw [hct]; simp [matchNumberedHeader, List.takeWhile_cons, hdigit]
  have hsb : matchSubBullet line = none := by
    have hg1 : ¬ c = '◦' := by rcases hc with e | e <;> subst e <;> simp
    have hg2 : ¬ c = '○' := by rcases hc with e | e <;> subst e <;> simp
    refine matchSubBullet_none_glyphless line c ?_ hg1 hg2
    obtain ⟨w, hw⟩ := dropWhile_of_stripChars line c t hct
    exact ⟨t ++ w, hw⟩
  simp only [classifyLine, hne, hm, hsb, hb, Bool.false_eq_true, if_false]

/-- C10: sub-bullets collected before any top-level bullet stay pending —
a first bullet line appends the bullet and keeps them — and are attached
to that first bullet together with any later sub-bullets when the next
bullet line arrives or when the run is flushed; a flush whose accumulator
holds pending sub-bullets but no bullet emits nothing and discards them. -/
theorem c10_pending_sub_bullets :
    (∀ (secs : List Section) (ss : List Str), ss ≠ [] →
      flushBullets secs [] ss = secs)
    ∧ (∀ (st : PState) (line g : Str), matchBullet (stripChars line) = some g →
        st.bullets = [] →
        processLine st line = { st with bullets := [.str (cleanText g)], inList := true })
    ∧ (∀ (st : PState) (line g : Str) (b : Str), matchBullet (stripChars line) = some g →
        st.bullets = [.str b] → st.subs ≠ [] →
        processLine st line =
          { st with
            bullets := [.pair (.str b) st.subs, .str (cleanText g)]
            subs := []
            inList := true })
    ∧ (∀ (secs : List Section) (b : Str) (ss : List Str), ss ≠ [] →
        flushBullets secs [.str b] ss =
          secs ++ [⟨"bullet_list", [], [.pair (.str b) ss], []⟩]) := by
  refine ⟨?_, ?_, ?_, ?_⟩
  · intro secs ss _
    simp [flushBullets]
  · intro st line g hb hbul
    rw [processLine_eq_classify, classify_bullet line g hb]
    simp [applyClass, hbul]
  · intro st line g b hb hbul hss
    have hsse : st.subs.isEmpty = false := by
      cases h : st.subs with
      | nil => exact absurd h hss
      | cons a t => rfl
    rw [processLine_eq_classify, classify_bullet line g hb]
    simp [applyClass, hbul, hsse, attachPair]
  · intro secs b ss hss
    have hsse : ss.isEmpty = false := by
      cases h : ss with
      | nil => exact absurd h hss
      | cons a t => rfl
    simp [flushBullets, hsse, attachIfStr]

/-- C10, witness: concrete instances of all four parts — flushing pending
sub-bullets with empty accumulator emits nothing; the first bullet line
keeps the pending sub-bullets; the second bullet attaches them to the
first; flushing a one-bullet run attaches them to that bullet. -/
theorem c10_pending_sub_bullets_witness :
    flushBullets [] [] ["S".toList] = []
    ∧ processLine ⟨[], [], ["S".toList], true⟩ "• B".toList =
        { sections := [], bullets := [.str "B".toList], subs := ["S".toList], inList := true }
    ∧ processLine ⟨[], [.str "B".toList], ["S".toList], true⟩ "• C".toList =
        { sections := []
          bullets := [.pair (.str "B".toList) ["S".toList], .str "C".toList]
          subs := []
          inList := true }
    ∧ flushBullets [] [.str "B".toList] ["S".toList] =
        [⟨"bullet_list", [], [.pair (.str "B".toList) ["S".toList]], []⟩] := by
  obtain ⟨h1, h2, h3, h4⟩ := c10_pending_sub_bullets
  refine ⟨h1 [] ["S".toList] (by decide), ?_, ?_, h4 [] "B".toList ["S".toList] (by decide)⟩
  · have := h2 ⟨[], [], ["S".toList], true⟩ "• B".toList "B".toList (by decide) rfl
    simpa using this
  · have := h3 ⟨[], [.str "B".toList], ["S".toList], true⟩ "• C".toList "C".toList "B".toList
      (by decide) rfl (by decide)
    simpa using this

/-! ## The `bullet_list` non-emptiness invariant (C6) -/

/-- The section property claimed invariant: a `bullet_list` section has a
non-empty items sequence. -/
def goodSec (sec : Section) : Prop := sec.type = "bullet_list" → sec.items ≠ []

/-- Attaching pending sub-bullets never empties the accumulator. -/
theorem attachIfStr_ne_nil (ss : List Str) (l : List Entry) (h : l ≠ []) :
    attachIfStr ss l ≠ [] := by
  match l with
  | [] => exact absurd rfl h
  | [.str s] => simp [attachIfStr]
  | [.pair v s] => simp [attachIfStr]
  | e :: a :: t => simp [attachIfStr]

/-- `_flush_bullets` preserves the invariant: it only ever appends a
`bullet_list` section with a non-empty accumulator. -/
theorem flushBullets_good (secs : List Section) (bullets : List Entry) (subs : List Str)
    (h : ∀ s ∈ secs, goodSec s) :
    ∀ s ∈ flushBullets secs bullets subs, goodSec s := by
  intro s hs
  unfold flushBullets at hs
  by_cases hc : (!subs.isEmpty && !bullets.isEmpty) = true
  · rw [if_pos hc] at hs
    by_cases hb2 : (attachIfStr subs bullets).isEmpty = true
    · rw [if_pos hb2] at hs
      exact h s hs
    · rw [if_neg hb2] at hs
      rcases List.mem_append.mp hs with hold | hnew
      · exact h s hold
      · rcases List.mem_singleton.mp hnew with rfl
        intro _
        simp only [List.isEmpty_eq_true] at hb2
        exact hb2
  · rw [if_neg hc] at hs
    by_cases hb2 : bullets.isEmpty = true
    · rw [if_pos hb2] at hs
      exact h s hs
    · rw [if_neg hb2] at hs
      rcases List.mem_append.mp hs with hold | hnew
      · exact h s hold
      · rcases List.mem_singleton.mp hnew with rfl
        intro _
        simp only [List.isEmpty_eq_true] at hb2
        exact hb2

/-- The invariant holds for all sections of the state. -/
def invGood (st : PState) : Prop := ∀ s ∈ st.sections, goodSec s

/-- One loop step preserves the invariant. -/
theorem processLine_invGood (st : PState) (line : Str) (h : invGood st) :
    invGood (processLine st line) := by
  have hflush : invGood (flushIfIn st) := by
    unfold flushIfIn
    by_cases hin : st.inList
    · rw [if_pos hin]
      exact flushBullets_good st.sections st.bullets st.subs h
    · rw [if_neg hin]
      exact h
  rw [processLine_eq_classify]
  cases classifyLine line with
  | blank => exact hflush
  | heading g =>
    intro s hs
    rcases List.mem_append.mp hs with hold | hnew
    · exact hflush s hold
    · rcases List.mem_singleton.mp hnew with rfl
      intro ht
      simp at ht
  | subBullet g => exact h
  | bullet g => exact h
  | tip v =>
    intro s hs
    rcases List.mem_append.mp hs with hold | hnew
    · exact hflush s hold
    · rcases List.mem_singleton.mp hnew with rfl
      intro ht
      simp at ht
  | paragraph =>
    intro s hs
    rcases List.mem_append.mp hs with hold | hnew
    · exact hflush s hold
    · rcases List.mem_singleton.mp hnew with rfl
      intro ht
      simp at ht

/-- The loop preserves the invariant across any list of lines. -/
theorem foldl_invGood (lines : List Str) (st : PState) (h : invGood st) :
    invGood (lines.foldl processLine st) := by
  induction lines generalizing st with
  | nil => exact h
  | cons l rest ih => exact ih (processLine st l) (processLine_invGood st l h)

/-- C6: every `bullet_list` section produced by `parse` has a non-empty
items sequence — empty accumulations are discarded at flush, never
emitted. -/
theorem c6_bullet_list_nonempty (raw : Str) (sec : Section)
    (h : sec ∈ parse raw) (ht : sec.type = "bullet_list") : sec.items ≠ [] := by
  have hinv : invGood ((splitOnNl (stripChars raw)).foldl processLine ⟨[], [], [], false⟩) :=
    foldl_invGood _ _ (by intro s hs; exact absurd hs (List.not_mem_nil s))
  unfold parse at h
  by_cases hin : ((splitOnNl (stripChars raw)).foldl processLine ⟨[], [], [], false⟩).inList
  · rw [if_pos hin] at h
    exact flushBullets_good _ _ _ hinv sec h ht
  · rw [if_neg hin] at h
    exact hinv sec h ht

/-- C6, witness: the single bullet run `"• A"` parses to a `bullet_list`
whose items are non-empty. -/
theorem c6_bullet_list_nonempty_witness :
    (⟨"bullet_list", [], [.str "A".toList], []⟩ : Section).items ≠ [] :=
  c6_bullet_list_nonempty "• A".toList ⟨"bullet_list", [], [.str "A".toList], []⟩
    (by decide) (by decide)

/-! ## Totality of the line classification (C7) -/

/-- The blank case: the stripped line is empty. -/
def isBlankLine (line : Str) : Bool := (stripChars line).isEmpty

/-- The numbered-heading case: header regex match plus emoji. -/
def isHeadingLine (line : Str) : Bool :=
  (matchNumberedHeader (stripChars line)).isSome && hasEmoji (stripChars line)

/-- The sub-bullet case (tested on the unstripped line). -/
def isSubBulletLine (line : Str) : Bool := (matchSubBullet line).isSome

/-- The top-level-bullet case. -/
def isBulletLine (line : Str) : Bool := (matchBullet (stripChars line)).isSome

/-- The tip-trigger case. -/
def isTipLine (line : Str) : Bool := (detectTipType (stripChars line)).isSome

/-- The default case: none of the five special cases. -/
def isParagraphLine (line : Str) : Bool :=
  !(isBlankLine line || isHeadingLine line || isSubBulletLine line || isBulletLine line
    || isTipLine line)

/-- The six cases, in the priority order of the loop body. -/
def lineCases (line : Str) : List Bool :=
  [isBlankLine line, isHeadingLine line, isSubBulletLine line, isBulletLine line,
   isTipLine line, isParagraphLine line]

/-- A non-whitespace head survives `dropTrailing`. -/
theorem dropTrailing_cons (c : Char) (r : Str) (hc : isSpc c = false) :
    ∃ u, dropTrailing (c :: r) = c :: u := by
  cases hd : dropTrailing (c :: r) with
  | nil =>
    exfalso
    have happ := dropTrailing_append (c :: r)
    rw [hd, List.nil_append] at happ
    have hmem : c ∈ (c :: r).reverse.takeWhile isSpc := by
      rw [← List.mem_reverse, happ]
      exact List.mem_cons_self c r
    have := List.mem_takeWhile_imp hmem
    rw [hc] at this
    exact Bool.noConfusion this
  | cons d u =>
    have happ := dropTrailing_append (c :: r)
    rw [hd, List.cons_append] at happ
    injection happ with h1 _
    subst h1
    exact ⟨u, rfl⟩

/-- An empty strip result means the whole line was whitespace. -/
theorem dropWhile_eq_nil_of_strip_nil (l : Str) (h : stripChars l = []) :
    l.dropWhile isSpc = [] := by
  cases hX : l.dropWhile isSpc with
  | nil => rfl
  | cons c r =>
    have hc := dropWhile_head_false isSpc l c r hX
    obtain ⟨u, hu⟩ := dropTrailing_cons c r hc
    rw [stripChars, hX, hu] at h
    exact absurd h (by simp)

/-- The head of a nonempty `dropWhile isSpc` is the head of the stripped
line. -/
theorem strip_head_of_dropWhile (l : Str) (c : Char) (r : Str)
    (h : l.dropWhile isSpc = c :: r) : ∃ u, stripChars l = c :: u := by
  have hc := dropWhile_head_false isSpc l c r h
  obtain ⟨u, hu⟩ := dropTrailing_cons c r hc
  exact ⟨u, by rw [stripChars, h, hu]⟩

/-- An all-whitespace line is not a sub-bullet. -/
theorem matchSubBullet_none_of_all_spc (line : Str) (h : line.dropWhile isSpc = []) :
    matchSubBullet line = none := by
  by_cases hws : (line.takeWhile isSpc).isEmpty = true
  · simp [matchSubBullet, hws]
  · have hd : line.drop (line.takeWhile isSpc).length = [] := by
      rw [← dropWhile_eq_drop_len]; exact h
    simp [matchSubBullet, hws, hd]

/-- A non-digit head refutes the numbered-header regex. -/
theorem matchNumberedHeader_none_head (c : Char) (t : Str) (h : c.isDigit = false) :
    matchNumberedHeader (c :: t) = none := by
  simp [matchNumberedHeader, List.takeWhile_cons, h]

/-- A sub-bullet match pins the first non-whitespace character to a
sub-bullet glyph. -/
theorem matchSubBullet_glyph (line g : Str) (h : matchSubBullet line = some g) :
    ∃ d r, line.dropWhile isSpc = d :: r ∧ (d = '◦' ∨ d = '○') := by
  simp only [matchSubBullet] at h
  by_cases hws : (line.takeWhile isSpc).isEmpty = true
  · rw [if_pos hws] at h
    exact absurd h (by simp)
  · rw [if_neg hws] at h
    cases hd : line.drop (line.takeWhile isSpc).length with
    | nil =>
      rw [hd] at h
      exact absurd h (by simp)
    | cons d r =>
      rw [hd] at h
      by_cases hg : (d = '◦' || d = '○') = true
      · refine ⟨d, r, ?_, by simpa using hg⟩
        rw [dropWhile_eq_drop_len]; exact hd
      · have hg2 : (decide (d = '◦') || decide (d = '○')) = false := Bool.of_not_eq_true hg
        have h2 : (if (decide (d = '◦') || decide (d = '○')) = true
            then matchSpRest r else none) = some g := h
        rw [hg2] at h2
        exact absurd h2 (by simp)

/-- A line whose stripped head is a sub-bullet glyph is not a top-level
bullet, a numbered header, or a tip trigger. -/
theorem subGlyph_rest_none (d : Char) (u : Str) (hg : d = '◦' ∨ d = '○') :
    matchNumberedHeader (d :: u) = none ∧ matchBullet (d :: u) = none
    ∧ detectTipType (d :: u) = none := by
  refine ⟨?_, ?_, ?_⟩
  · exact matchNumberedHeader_none_head d u (by rcases hg with e | e <;> subst e <;> decide)
  · have h1 : ¬ d = '•' := by rcases hg with e | e <;> subst e <;> simp
    have h2 : ¬ d = '●' := by rcases hg with e | e <;> subst e <;> simp
    simp [matchBullet, h1, h2]
  · refine detectTip_none_of_head d u (fun x hx e => ?_)
    subst e
    rcases hg with e | e <;> subst e <;> revert hx <;> decide

/-- C7: the parser is total — every line falls into exactly one of the
six cases (blank, numbered heading, sub-bullet, top-level bullet, tip
trigger, default paragraph), and the loop body acts on every line and
every state as the unique case's update, so `parse` returns a section
list for every input. -/
theorem c7_classification_total (line : Str) :
    (lineCases line).count true = 1
    ∧ ∀ st : PState, processLine st line = applyClass st (stripChars line) (classifyLine line) := by
  refine ⟨?_, fun st => processLine_eq_classify st line⟩
  by_cases hbl : (stripChars line).isEmpty = true
  · have h0 : stripChars line = [] := by simpa using hbl
    have hX : line.dropWhile isSpc = [] := dropWhile_eq_nil_of_strip_nil line h0
    have hsub := matchSubBullet_none_of_all_spc line hX
    have e1 : matchNumberedHeader ([] : Str) = none := rfl
    have e2 : matchBullet ([] : Str) = none := rfl
    have e3 : detectTipType ([] : Str) = none := by decide
    have hl : lineCases line = [true, false, false, false, false, false] := by
      simp [lineCases, isBlankLine, isHeadingLine, isSubBulletLine, isBulletLine, isTipLine,
        isParagraphLine, h0, hsub, e1, e2, e3]
    rw [hl]; decide
  · obtain ⟨c, t, hct⟩ : ∃ c t, stripChars line = c :: t := by
      cases h : stripChars line with
      | nil => rw [h] at hbl; exact absurd rfl hbl
      | cons c t => exact ⟨c, t, rfl⟩
    by_cases hhd : isHeadingLine line = true
    · have hm : (matchNumberedHeader (stripChars line)).isSome = true := by
        simp only [isHeadingLine, Bool.and_eq_true] at hhd
        exact hhd.1
      obtain ⟨g, hg⟩ := Option.isSome_iff_exists.mp hm
      obtain ⟨c', t', hct', hdig⟩ := matchNumberedHeader_head _ _ hg
      rw [hct] at hct'
      injection hct' with e1 e2
      subst e1; subst e2
      have hsub : matchSubBullet line = none := by
        refine matchSubBullet_none_glyphless line c ?_
          (fun e => by subst e; exact absurd hdig (by decide))
          (fun e => by subst e; exact absurd hdig (by decide))
        obtain ⟨w, hw⟩ := dropWhile_of_stripChars line c t hct
        exact ⟨t ++ w, hw⟩
      have hbul : matchBullet (c :: t) = none := matchBullet_none_of_digit c t hdig
      have htip : detectTipType (c :: t) = none := detectTip_none_of_digit c t hdig
      have hl : lineCases line = [false, true, false, false, false, false] := by
        simp [lineCases, isBlankLine, isSubBulletLine, isBulletLine, isTipLine,
          isParagraphLine, hct, hhd, hsub, hbul, htip]
      rw [hl]; decide
    · by_cases hsb : isSubBulletLine line = true
      · obtain ⟨g, hg⟩ := Option.isSome_iff_exists.mp (by simpa [isSubBulletLine] using hsb)
        obtain ⟨d, r, hdr, hglyph⟩ := matchSubBullet_glyph line g hg
        obtain ⟨u, hu⟩ := strip_head_of_dropWhile line d r hdr
        obtain ⟨hhm, hhb, hht⟩ := subGlyph_rest_none d u hglyph
        have hl : lineCases line = [false, false, true, false, false, false] := by
          simp [lineCases, isBlankLine, isSubBulletLine, isBulletLine, isTipLine,
            isParagraphLine, hu, hhd, hg, hhb, hht]
        rw [hl]; decide
      · by_cases hbu : isBulletLine line = true
        · obtain ⟨g, hg⟩ := Option.isSome_iff_exists.mp (by simpa [isBulletLine] using hbu)
          obtain ⟨c', t', hct', hglyph⟩ := matchBullet_head _ _ hg
          rw [hct] at hct'
          injection hct' with e1 e2
          subst e1; subst e2
          have htip : detectTipType (c :: t) = none := by
            refine detectTip_none_of_head c t (fun x hx e => ?_)
            subst e
            rcases hglyph with e | e <;> subst e <;> revert hx <;> decide
          have hl : lineCases line = [false, false, false, true, false, false] := by
            simp [lineCases, isBlankLine, isTipLine, isParagraphLine, hct, hhd, hsb, hbu, htip]
          rw [hl]; decide
        · by_cases hti : isTipLine line = true
          · have hl : lineCases line = [false, false, false, false, true, false] := by
              simp [lineCases, isBlankLine, isParagraphLine, hct, hhd, hsb, hbu, hti]
            rw [hl]; decide
          · have hl : lineCases line = [false, false, false, false, false, true] := by
              simp [lineCases, isBlankLine, isParagraphLine, hct, hhd, hsb, hbu, hti]
            rw [hl]; decide

/-- C7, witness: the malformed line `"@@@"` falls in exactly one case
(the default paragraph) and the loop body is total on it. -/
theorem c7_classification_total_witness :
    (lineCases "@@@".toList).count true = 1
    ∧ ∀ st : PState, processLine st "@@@".toList =
        applyClass st (stripChars "@@@".toList) (classifyLine "@@@".toList) :=
  c7_classification_total "@@@".toList

/-! ## Rendering never fails on parser output (shared by C1 and C8)

`_build_list` would raise a `TypeError` on a nested tuple entry; the
accumulator discipline of `parse` never produces one.
-/

/-- An entry the renderer accepts: a string, or a pair whose first
component is a string. -/
def flatEntry : Entry → Bool
  | .str _ => true
  | .pair (.str _) _ => true
  | .pair (.pair _ _) _ => false

/-- All items of the section are renderable. -/
def flatSec (sec : Section) : Bool := sec.items.all flatEntry

/-- The last accumulated bullet is a plain string (trivially true for an
empty accumulator). -/
def lastIsStr : List Entry → Bool
  | [] => true
  | [.str _] => true
  | [.pair _ _] => false
  | _ :: es => lastIsStr es

/-- The loop invariant: emitted sections are renderable, accumulated
entries are renderable, and the last accumulated bullet is plain. -/
def invFlat (st : PState) : Prop :=
  (∀ s ∈ st.sections, flatSec s = true) ∧ (∀ e ∈ st.bullets, flatEntry e = true)
  ∧ lastIsStr st.bullets = true

/-- Unfolding equations for the accumulator helpers on longer lists. -/
theorem lastIsStr_cons_cons (a b : Entry) (t : List Entry) :
    lastIsStr (a :: b :: t) = lastIsStr (b :: t) := by cases a <;> rfl

theorem attachPair_cons_cons (subs : List Str) (a b : Entry) (t : List Entry) :
    attachPair subs (a :: b :: t) = a :: attachPair subs (b :: t) := rfl

theorem attachIfStr_cons_cons (subs : List Str) (a b : Entry) (t : List Entry) :
    attachIfStr subs (a :: b :: t) = a :: attachIfStr subs (b :: t) := by cases a <;> rfl

/-- Attaching to a plain last bullet keeps all entries renderable. -/
theorem attachPair_flat (subs : List Str) (l : List Entry)
    (hf : ∀ e ∈ l, flatEntry e = true) (hl : lastIsStr l = true) :
    ∀ e ∈ attachPair subs l, flatEntry e = true := by
  match l with
  | [] => intro e he; exact absurd he (List.not_mem_nil e)
  | [.str s] =>
    intro e he
    rcases List.mem_singleton.mp he with rfl
    rfl
  | [.pair v s] => exact absurd hl (by simp [lastIsStr])
  | a :: b :: t =>
    intro e he
    rw [attachPair_cons_cons] at he
    rcases List.mem_cons.mp he with rfl | he2
    · exact hf e (List.mem_cons_self e (b :: t))
    · refine attachPair_flat subs (b :: t) (fun x hx => hf x (List.mem_cons_of_mem a hx)) ?_ e he2
      rw [← lastIsStr_cons_cons a b t]
      exact hl

/-- The guarded flush attach keeps all entries renderable. -/
theorem attachIfStr_flat (subs : List Str) (l : List Entry)
    (hf : ∀ e ∈ l, flatEntry e = true) :
    ∀ e ∈ attachIfStr subs l, flatEntry e = true := by
  match l with
  | [] => intro e he; exact absurd he (List.not_mem_nil e)
  | [.str s] =>
    intro e he
    rcases List.mem_singleton.mp he with rfl
    rfl
  | [.pair v s] => exact hf
  | a :: b :: t =>
    intro e he
    rw [attachIfStr_cons_cons] at he
    rcases List.mem_cons.mp he with rfl | he2
    · exact hf e (List.mem_cons_self e (b :: t))
    · exact attachIfStr_flat subs (b :: t) (fun x hx => hf x (List.mem_cons_of_mem a hx)) e he2

/-- Appending a plain bullet makes the last bullet plain. -/
theorem lastIsStr_append_str (l : List Entry) (s : Str) :
    lastIsStr (l ++ [.str s]) = true := by
  match l with
  | [] => rfl
  | [.str x] => rfl
  | [.pair v x] => rfl
  | a :: b :: t =>
    rw [show (a :: b :: t) ++ [Entry.str s] = a :: b :: (t ++ [Entry.str s]) from rfl]
    rw [lastIsStr_cons_cons]
    exact lastIsStr_append_str (b :: t) s

/-- Flushing preserves renderability of the emitted sections. -/
theorem flushBullets_flat (secs : List Section) (bullets : List Entry) (subs : List Str)
    (hsec : ∀ s ∈ secs, flatSec s = true) (hb : ∀ e ∈ bullets, flatEntry e = true) :
    ∀ s ∈ flushBullets secs bullets subs, flatSec s = true := by
  intro s hs
  unfold flushBullets at hs
  by_cases hc : (!subs.isEmpty && !bullets.isEmpty) = true
  · rw [if_pos hc] at hs
    by_cases hb2 : (attachIfStr subs bullets).isEmpty = true
    · rw [if_pos hb2] at hs; exact hsec s hs
    · rw [if_neg hb2] at hs
      rcases List.mem_append.mp hs with hold | hnew
      · exact hsec s hold
      · rcases List.mem_singleton.mp hnew with rfl
        exact List.all_eq_true.mpr (attachIfStr_flat subs bullets hb)
  · rw [if_neg hc] at hs
    by_cases hb2 : bullets.isEmpty = true
    · rw [if_pos hb2] at hs; exact hsec s hs
    · rw [if_neg hb2] at hs
      rcases List.mem_append.mp hs with hold | hnew
      · exact hsec s hold
      · rcases List.mem_singleton.mp hnew with rfl
        exact List.all_eq_true.mpr hb

/-- One loop step preserves the renderability invariant. -/
theorem processLine_invFlat (st : PState) (line : Str) (h : invFlat st) :
    invFlat (processLine st line) := by
  obtain ⟨hsec, hb, hl⟩ := h
  have hflush : invFlat (flushIfIn st) := by
    unfold flushIfIn
    by_cases hin : st.inList
    · rw [if_pos hin]
      refine ⟨flushBullets_flat st.sections st.bullets st.subs hsec hb, ?_, rfl⟩
      intro e he
      exact absurd he (List.not_mem_nil e)
    · rw [if_neg hin]
      exact ⟨hsec, hb, hl⟩
  obtain ⟨h2sec, h2b, h2l⟩ := hflush
  rw [processLine_eq_classify]
  cases classifyLine line with
  | blank => exact ⟨h2sec, h2b, h2l⟩
  | heading g =>
    refine ⟨?_, h2b, h2l⟩
    intro s hs
    rcases List.mem_append.mp hs with hold | hnew
    · exact h2sec s hold
    · rcases List.mem_singleton.mp hnew with rfl
      rfl
  | subBullet g => exact ⟨hsec, hb, hl⟩
  | bullet g =>
    refine ⟨hsec, ?_, ?_⟩
    · intro e he
      rcases List.mem_append.mp he with hmem | hnew
      · by_cases hda : (!st.subs.isEmpty && !st.bullets.isEmpty) = true
        · rw [if_pos hda] at hmem
          exact attachPair_flat st.subs st.bullets hb hl e hmem
        · rw [if_neg hda] at hmem
          exact hb e hmem
      · rcases List.mem_singleton.mp hnew with rfl
        rfl
    · exact lastIsStr_append_str _ _
  | tip v =>
    refine ⟨?_, h2b, h2l⟩
    intro s hs
    rcases List.mem_append.mp hs with hold | hnew
    · exact h2sec s hold
    · rcases List.mem_singleton.mp hnew with rfl
      rfl
  | paragraph =>
    refine ⟨?_, h2b, h2l⟩
    intro s hs
    rcases List.mem_append.mp hs with hold | hnew
    · exact h2sec s hold
    · rcases List.mem_singleton.mp hnew with rfl
      rfl

/-- Every section produced by `parse` is renderable. -/
theorem parse_flat (raw : Str) : ∀ s ∈ parse raw, flatSec s = true := by
  have hfold : ∀ (lines : List Str) (st : PState), invFlat st →
      invFlat (lines.foldl processLine st) := by
    intro lines
    induction lines with
    | nil => intro st h; exact h
    | cons l rest ih => intro st h; exact ih (processLine st l) (processLine_invFlat st l h)
  have hinv : invFlat ((splitOnNl (stripChars raw)).foldl processLine ⟨[], [], [], false⟩) := by
    refine hfold _ _ ⟨?_, ?_, rfl⟩
    · intro s hs; exact absurd hs (List.not_mem_nil s)
    · intro e he; exact absurd he (List.not_mem_nil e)
  obtain ⟨hsec, hb, _⟩ := hinv
  intro s hs
  unfold parse at hs
  by_cases hin : ((splitOnNl (stripChars raw)).foldl processLine ⟨[], [], [], false⟩).inList
  · rw [if_pos hin] at hs
    exact flushBullets_flat _ _ _ hsec hb s hs
  · rw [if_neg hin] at hs
    exact hsec s hs

/-- A renderable entry renders. -/
theorem entryHtml_some (e : Entry) (h : flatEntry e = true) : (entryHtml e).isSome = true := by
  match e with
  | .str s => rfl
  | .pair (.str t) subs => rfl
  | .pair (.pair _ _) _ => exact absurd h (by simp [flatEntry])

/-- A renderable item list renders. -/
theorem entriesHtml_some (items : List Entry) (h : ∀ e ∈ items, flatEntry e = true) :
    (entriesHtml items).isSome = true := by
  induction items with
  | nil => rfl
  | cons e es ih =>
    obtain ⟨s, hs⟩ := Option.isSome_iff_exists.mp (entryHtml_some e (h e (List.mem_cons_self e es)))
    have ih2 := ih (fun x hx => h x (List.mem_cons_of_mem e hx))
    simp [entriesHtml, hs, Option.isSome_map, ih2]

/-- A renderable section renders (to a part or to nothing). -/
theorem sectionHtml_some (sec : Section) (h : flatSec sec = true) :
    (sectionHtml sec).isSome = true := by
  by_cases h1 : sec.type = "h3"
  · simp [sectionHtml, h1]
  · by_cases h2 : sec.type = "paragraph"
    · simp [sectionHtml, h1, h2]
    · by_cases h3 : sec.type = "bullet_list"
      · have he := entriesHtml_some sec.items (List.all_eq_true.mp h)
        simp [sectionHtml, h1, h2, h3, buildListHtml, Option.isSome_map, he]
      · by_cases h4 : sec.type = "tip_box"
        · simp [sectionHtml, h1, h2, h3, h4]
        · simp [sectionHtml, h1, h2, h3, h4]

/-- A renderable section list renders. -/
theorem sectionsParts_some (secs : List Section) (h : ∀ s ∈ secs, flatSec s = true) :
    (sectionsParts secs).isSome = true := by
  induction secs with
  | nil => rfl
  | cons sec rest ih =>
    obtain ⟨o, ho⟩ :=
      Option.isSome_iff_exists.mp (sectionHtml_some sec (h sec (List.mem_cons_self sec rest)))
    have ih2 := ih (fun x hx => h x (List.mem_cons_of_mem sec hx))
    cases o with
    | none => simp [sectionsParts, ho, ih2]
    | some part => simp [sectionsParts, ho, Option.isSome_map, ih2]

/-- Rendering the parse of any raw text never fails. -/
theorem sectionsToHtml_parse_some (raw : Str) :
    (sectionsToHtml (parse raw)).isSome = true := by
  have hps := sectionsParts_some (parse raw) (parse_flat raw)
  simp [sectionsToHtml, Option.isSome_map, hps]

/-! ## Chapter content resolution (C1) -/

/-- Modelled from the spec's words, for the refinement statement: the
rendered document of one fragment (total, justified by
`sectionsToHtml_parse_some`). -/
def renderFragmentSpec (raw : Str) : Str := (sectionsToHtml (parse raw)).getD []

/-- Modelled from the spec's words: the chapter content when no override
exists — the rendered documents of exactly the fragment identifiers whose
raw text exists, in configured order, joined by the divider, or the
localized placeholder notice when none contributed. -/
def chapterContentSpec (fragment : String → Option Str) (ch : Chapter) : Str :=
  let parts := ch.questions.filterMap (fun q => (fragment q).map renderFragmentSpec)
  if parts.isEmpty then comingSoonNotice else List.intercalate chapterDivider parts

/-- The fallback loop of `_generate_from_raw` computes exactly the
existing fragments' renderings, in order. -/
theorem fragmentsParts_eq (fragment : String → Option Str) (qs : List String) :
    fragmentsParts fragment qs =
      some (qs.filterMap (fun q => (fragment q).map renderFragmentSpec)) := by
  induction qs with
  | nil => rfl
  | cons q rest ih =>
    cases hf : fragment q with
    | none => simp [fragmentsParts, hf, ih]
    | some raw =>
      obtain ⟨h, hh⟩ := Option.isSome_iff_exists.mp (sectionsToHtml_parse_some raw)
      have hr : renderFragmentSpec raw = h := by simp [renderFragmentSpec, hh]
      simp [fragmentsParts, hf, hh, ih, hr]

/-- C1: the per-chapter resolution of `build` never fails and follows the
precedence: an existing override chapter file is used verbatim (the
configured fragment identifiers are ignored); otherwise the renderings of
exactly those fragment identifiers whose raw text exists are joined in
configured order by the divider marker, and the localized placeholder
notice is substituted when no fragment contributed. -/
theorem c1_chapter_resolution (chapterFile : Nat → Option Str)
    (fragment : String → Option Str) (ch : Chapter) :
    resolveContent chapterFile fragment ch =
      some ((chapterFile ch.id).getD (chapterContentSpec fragment ch)) := by
  cases hc : chapterFile ch.id with
  | some t => simp [resolveContent, hc]
  | none =>
    simp [resolveContent, hc, generateFromRaw, fragmentsParts_eq, chapterContentSpec]

/-! ## Placeholder survival machinery (C8) -/

/-- `occursIn p s`: `p` occurs as a contiguous substring of `s`. -/
def occursIn (p : Str) : Str → Bool
  | [] => p.isEmpty
  | c :: rest => leadsWith p (c :: rest) || occursIn p rest

/-- `leadsWith` is the prefix relation. -/
theorem leadsWith_iff_append (p t : Str) : leadsWith p t = true ↔ ∃ u, t = p ++ u := by
  induction p generalizing t with
  | nil => simp [leadsWith]
  | cons a p ih =>
    cases t with
    | nil =>
      simp [leadsWith]
    | cons b t =>
      simp only [leadsWith, Bool.and_eq_true, beq_iff_eq, ih, List.cons_append, List.cons.injEq]
      constructor
      · rintro ⟨rfl, u, rfl⟩
        exact ⟨u, rfl, rfl⟩
      · rintro ⟨u, rfl, rfl⟩
        exact ⟨rfl, u, rfl⟩

/-- A prefix occurrence is an occurrence. -/
theorem occursIn_of_leadsWith (p s : Str) (h : leadsWith p s = true) : occursIn p s = true := by
  cases s with
  | nil =>
    cases p with
    | nil => rfl
    | cons a q => simp [leadsWith] at h
  | cons c rest => simp [occursIn, h]

/-- An occurrence in the right part survives an append on the left. -/
theorem occursIn_append_left (p a b : Str) (h : occursIn p b = true) :
    occursIn p (a ++ b) = true := by
  induction a with
  | nil => simpa using h
  | cons c a ih => simp [occursIn, ih]

/-- An occurrence survives dropping a match-free prefix. -/
theorem occursIn_drop (q : Str) (n : Nat) :
    ∀ s : Str, occursIn q s = true →
    (∀ i, i < n → leadsWith q (s.drop i) = false) → occursIn q (s.drop n) = true := by
  induction n with
  | zero => intro s h _; simpa using h
  | succ m ih =>
    intro s h hno
    cases s with
    | nil => simpa using h
    | cons c rest =>
      have h0 : leadsWith q (c :: rest) = false := by
        have := hno 0 (Nat.succ_pos m)
        simpa using this
      have h1 : occursIn q rest = true := by
        have h2 : occursIn q (c :: rest) = true := h
        rw [occursIn, h0] at h2
        simpa using h2
      have h3 : ∀ i, i < m → leadsWith q (rest.drop i) = false := by
        intro i hi
        have := hno (i + 1) (Nat.succ_lt_succ hi)
        simpa using this
      simpa using ih rest h1 h3

/-- Fuel does not matter for `replaceAux` once it covers the input
length. -/
theorem replaceAux_fuel (p r : Str) :
    ∀ (n : Nat) (s : Str), s.length ≤ n → ∀ f1 f2, s.length ≤ f1 → s.length ≤ f2 →
    replaceAux f1 p r s = replaceAux f2 p r s := by
  intro n
  induction n with
  | zero =>
    intro s hs f1 f2 _ _
    have : s = [] := List.length_eq_zero.mp (Nat.le_zero.mp hs)
    subst this
    cases f1 <;> cases f2 <;> rfl
  | succ m ih =>
    intro s hs f1 f2 h1 h2
    cases s with
    | nil => cases f1 <;> cases f2 <;> rfl
    | cons c rest =>
      cases f1 with
      | zero => exact absurd h1 (by simp)
      | succ a =>
        cases f2 with
        | zero => exact absurd h2 (by simp)
        | succ b =>
          simp only [replaceAux]
          have hrest : rest.length ≤ m := by
            have := hs; simp only [List.length_cons] at this; omega
          have hra : rest.length ≤ a := by
            have := h1; simp only [List.length_cons] at this; omega
          have hrb : rest.length ≤ b := by
            have := h2; simp only [List.length_cons] at this; omega
          by_cases hl : leadsWith p (c :: rest) = true
          · rw [if_pos hl, if_pos hl]
            have hd : (rest.drop (p.length - 1)).length ≤ rest.length := by
              simp [List.length_drop]
            rw [ih (rest.drop (p.length - 1)) (le_trans hd hrest) a b
              (le_trans hd hra) (le_trans hd hrb)]
          · rw [if_neg hl, if_neg hl]
            rw [ih rest hrest a b hra hrb]

/-- The one-step unfolding of Python `str.replace` on a nonempty
pattern. -/
theorem replaceList_cons (p r : Str) (hp : p ≠ []) (c : Char) (rest : Str) :
    replaceList p r (c :: rest) =
      if leadsWith p (c :: rest) = true
      then r ++ replaceList p r (rest.drop (p.length - 1))
      else c :: replaceList p r rest := by
  obtain ⟨a, p', rfl⟩ : ∃ a p', p = a :: p' := by
    cases p with
    | nil => exact absurd rfl hp
    | cons a p' => exact ⟨a, p', rfl⟩
  show replaceAux (rest.length + 1) (a :: p') r (c :: rest) = _
  simp only [replaceAux]
  by_cases hl : leadsWith (a :: p') (c :: rest) = true
  · rw [if_pos hl, if_pos hl]
    have hd : (rest.drop ((a :: p').length - 1)).length ≤ rest.length := by
      simp [List.length_drop]
    rw [replaceAux_fuel (a :: p') r rest.length (rest.drop ((a :: p').length - 1)) hd
      rest.length (rest.drop ((a :: p').length - 1)).length hd (le_refl _)]
    rfl
  · rw [if_neg hl, if_neg hl]
    rfl

/-- Python `str.replace` on the empty string. -/
theorem replaceList_nil (p r : Str) : replaceList p r [] = [] := by
  cases p <;> rfl

/-- A prefix free of pattern matches is copied verbatim by `replace`. -/
theorem replaceList_skip (p r : Str) (hp : p ≠ []) :
    ∀ (n : Nat) (s : Str), (∀ i, i < n → leadsWith p (s.drop i) = false) →
    replaceList p r s = s.take n ++ replaceList p r (s.drop n) := by
  intro n
  induction n with
  | zero => intro s _; simp
  | succ m ih =>
    intro s hno
    cases s with
    | nil => simp [replaceList_nil]
    | cons c rest =>
      have h0 : leadsWith p (c :: rest) = false := by simpa using hno 0 (Nat.succ_pos m)
      rw [replaceList_cons p r hp c rest, if_neg (by simp [h0])]
      have h1 : ∀ i, i < m → leadsWith p (rest.drop i) = false := fun i hi => by
        simpa using hno (i + 1) (Nat.succ_lt_succ hi)
      rw [ih rest h1]
      simp [List.take_succ_cons, List.drop_succ_cons]

/-- Occurrence survival under `replace`: when no occurrence of the
pattern `p` can overlap an occurrence of `q` (in either direction),
replacing `p` preserves every occurrence of `q`. -/
theorem occursIn_replaceList (p q r : Str) (hp : p ≠ [])
    (condA : ∀ t, leadsWith p t = true → ∀ i, i < p.length →
      leadsWith q (t.drop i) = true → False)
    (condB : ∀ t, leadsWith q t = true → ∀ i, 0 < i → i < q.length →
      leadsWith p (t.drop i) = true → False) :
    ∀ (n : Nat) (s : Str), s.length ≤ n → occursIn q s = true →
      occursIn q (replaceList p r s) = true := by
  intro n
  induction n with
  | zero =>
    intro s hs h
    have : s = [] := List.length_eq_zero.mp (Nat.le_zero.mp hs)
    subst this
    rw [replaceList_nil]
    exact h
  | succ m ih =>
    intro s hs h
    cases s with
    | nil =>
      rw [replaceList_nil]
      exact h
    | cons c rest =>
      have hr : rest.length ≤ m := by
        simp only [List.length_cons] at hs; omega
      by_cases hl : leadsWith p (c :: rest) = true
      · rw [replaceList_cons p r hp c rest, if_pos hl]
        have hA : ∀ i, i < p.length → leadsWith q ((c :: rest).drop i) = false := by
          intro i hi
          by_cases hq : leadsWith q ((c :: rest).drop i) = true
          · exact (condA (c :: rest) hl i hi hq).elim
          · exact Bool.of_not_eq_true hq
        have h2 : occursIn q ((c :: rest).drop p.length) = true :=
          occursIn_drop q p.length (c :: rest) h hA
        obtain ⟨a, p', rfl⟩ : ∃ a p', p = a :: p' := by
          cases p with
          | nil => exact absurd rfl hp
          | cons a p' => exact ⟨a, p', rfl⟩
        have h3 : (c :: rest).drop (a :: p').length = rest.drop ((a :: p').length - 1) := by
          simp [List.drop_succ_cons]
        rw [h3] at h2
        refine occursIn_append_left q r _ ?_
        refine ih (rest.drop ((a :: p').length - 1)) ?_ h2
        have h4 : (rest.drop ((a :: p').length - 1)).length ≤ rest.length := by
          simp [List.length_drop]
        omega
      · have hor : leadsWith q (c :: rest) = true ∨ occursIn q rest = true := by
          have h2 : occursIn q (c :: rest) = true := h
          rw [occursIn] at h2
          simpa using h2
        rcases hor with hq | hrest
        · have hB : ∀ i, i < q.length → leadsWith p ((c :: rest).drop i) = false := by
            intro i hi
            cases Nat.eq_zero_or_pos i with
            | inl h0 => subst h0; simpa using Bool.of_not_eq_true hl
            | inr hpos =>
              by_cases hp2 : leadsWith p ((c :: rest).drop i) = true
              · exact (condB (c :: rest) hq i hpos hi hp2).elim
              · exact Bool.of_not_eq_true hp2
          rw [replaceList_skip p r hp q.length (c :: rest) hB]
          obtain ⟨u, hu⟩ := (leadsWith_iff_append q (c :: rest)).mp hq
          have htake : (c :: rest).take q.length = q := by
            rw [hu]; exact List.take_left q u
          rw [htake]
          exact occursIn_of_leadsWith q _ ((leadsWith_iff_append q _).mpr ⟨_, rfl⟩)
        · rw [replaceList_cons p r hp c rest, if_neg (by simp [hl])]
          have h5 := ih rest hr hrest
          rw [occursIn]
          simp [h5]

/-- Every character of a decimal representation is an ASCII digit. -/
theorem natCharsAux_digits : ∀ (fuel n : Nat) (c : Char), c ∈ natCharsAux fuel n →
    c.isDigit = true := by
  intro fuel
  induction fuel with
  | zero => intro n c hc; exact absurd hc (List.not_mem_nil c)
  | succ m ih =>
    intro n c hc
    by_cases hn : n = 0
    · rw [natCharsAux, if_pos hn] at hc
      exact absurd hc (List.not_mem_nil c)
    · rw [natCharsAux, if_neg hn] at hc
      rcases List.mem_append.mp hc with h1 | h2
      · exact ih (n / 10) c h1
      · rcases List.mem_singleton.mp h2 with rfl
        have hlt : n % 10 < 10 := Nat.mod_lt n (by omega)
        have : ∀ k, k < 10 → (Char.ofNat (48 + k)).isDigit = true := by decide
        exact this (n % 10) hlt

/-- Every character of `natChars n` is an ASCII digit. -/
theorem natChars_digits (n : Nat) : ∀ c ∈ natChars n, c.isDigit = true := by
  intro c hc
  unfold natChars at hc
  by_cases hn : n = 0
  · rw [if_pos hn] at hc
    rcases List.mem_singleton.mp hc with rfl
    decide
  · rw [if_neg hn] at hc
    exact natCharsAux_digits n n c hc

/-- Folding the base-10 evaluator over the digit list recovers the
number. -/
theorem natCharsAux_foldl : ∀ (fuel n : Nat), n ≤ fuel → ∀ acc : Nat,
    (natCharsAux fuel n).foldl (fun a c => a * 10 + (c.toNat - 48)) acc =
      acc * 10 ^ (natCharsAux fuel n).length + n := by
  intro fuel
  induction fuel with
  | zero =>
    intro n hn acc
    have : n = 0 := Nat.le_zero.mp hn
    subst this
    simp [natCharsAux]
  | succ m ih =>
    intro n hn acc
    by_cases hz : n = 0
    · subst hz
      simp [natCharsAux]
    · rw [natCharsAux, if_neg hz]
      have hdiv : n / 10 ≤ m := by
        have h1 : n / 10 < n := Nat.div_lt_self (Nat.pos_of_ne_zero hz) (by omega)
        omega
      rw [List.foldl_append]
      rw [ih (n / 10) hdiv acc]
      have hm : n % 10 < 10 := Nat.mod_lt n (by omega)
      have htn : ∀ k, k < 10 → (Char.ofNat (48 + k)).toNat = 48 + k := by decide
      simp only [List.foldl_cons, List.foldl_nil, List.length_append, List.length_cons,
        List.length_nil, htn (n % 10) hm]
      have : 48 + n % 10 - 48 = n % 10 := by omega
      rw [this]
      have hmod := Nat.div_add_mod n 10
      ring_nf
      omega

/-- The base-10 evaluation of `natChars n` is `n`. -/
theorem natChars_decode (n : Nat) :
    (natChars n).foldl (fun a c => a * 10 + (c.toNat - 48)) 0 = n := by
  unfold natChars
  by_cases hn : n = 0
  · subst hn; decide
  · rw [if_neg hn]
    rw [natCharsAux_foldl n n (le_refl n) 0]
    simp

/-- Decimal representations of distinct numbers differ. -/
theorem natChars_inj (a b : Nat) (h : natChars a = natChars b) : a = b := by
  have ha := natChars_decode a
  have hb := natChars_decode b
  rw [h] at ha
  exact ha.symm.trans hb


/-- The brace-free tail of a placeholder token. -/
def phMid (n : Nat) : Str := "CHAPTER_".toList ++ (natChars n ++ "_CONTENT\x7d\x7d".toList)

/-- The placeholder token decomposed: two braces, then the tail. -/
theorem ph_cons (n : Nat) : placeholderOf n = '\x7b' :: '\x7b' :: phMid n := rfl

/-- The placeholder tail contains no opening brace. -/
theorem phMid_no_brace (n : Nat) (c : Char) (hc : c ∈ phMid n) : ¬ c = '\x7b' := by
  intro rfl2
  subst rfl2
  unfold phMid at hc
  rcases List.mem_append.mp hc with h1 | h2
  · exact absurd h1 (by decide)
  · rcases List.mem_append.mp h2 with h3 | h4
    · have := natChars_digits n _ h3
      exact absurd this (by decide)
    · exact absurd h4 (by decide)

/-- A placeholder token cannot start strictly inside another placeholder
token: the interior of a token contains no `{{`. -/
theorem placeholder_no_inner (a b : Nat) (t : Str) (i : Nat)
    (hlead : leadsWith (placeholderOf a) t = true) (h0 : 0 < i)
    (hi : i < (placeholderOf a).length)
    (hq : leadsWith (placeholderOf b) (t.drop i) = true) : False := by
  obtain ⟨u, rfl⟩ := (leadsWith_iff_append _ _).mp hlead
  rw [List.drop_append_of_le_length (le_of_lt hi)] at hq
  rw [ph_cons b, ph_cons a] at hq
  rw [ph_cons a] at hi
  rcases Nat.lt_or_ge i 2 with hlt | hge
  · have hi1 : i = 1 := by omega
    subst hi1
    simp only [List.drop_succ_cons, List.drop_zero] at hq
    have hCm : phMid a = 'C' :: ("HAPTER_".toList ++ (natChars a ++ "_CONTENT\x7d\x7d".toList)) :=
      rfl
    rw [hCm] at hq
    simp only [List.cons_append, leadsWith, Bool.and_eq_true, beq_iff_eq] at hq
    exact absurd hq.2.1 (by decide)
  · have hdrop2 : ('\x7b' :: '\x7b' :: phMid a).drop i = (phMid a).drop (i - 2) := by
      obtain ⟨j, rfl⟩ : ∃ j, i = j + 2 := ⟨i - 2, by omega⟩
      simp [List.drop_succ_cons]
    rw [hdrop2] at hq
    have hlen : i - 2 < (phMid a).length := by
      simp only [List.length_cons] at hi
      omega
    cases hd : (phMid a).drop (i - 2) with
    | nil =>
      have hlend := List.length_drop (i - 2) (phMid a)
      rw [hd] at hlend
      simp only [List.length_nil] at hlend
      omega
    | cons c0 r0 =>
      rw [hd, List.cons_append] at hq
      simp only [leadsWith, Bool.and_eq_true, beq_iff_eq] at hq
      have hc0 : c0 ∈ phMid a := List.mem_of_mem_drop (hd ▸ List.mem_cons_self c0 r0)
      exact phMid_no_brace a c0 hc0 hq.1.symm

/-- Matching digit runs terminated by `_` coincide. -/
theorem digit_run_eq : ∀ (d1 d2 x y : Str), (∀ c ∈ d1, c.isDigit = true) →
    (∀ c ∈ d2, c.isDigit = true) → d1 ++ '_' :: x = d2 ++ '_' :: y → d1 = d2 := by
  intro d1
  induction d1 with
  | nil =>
    intro d2 x y _ h2 he
    cases d2 with
    | nil => rfl
    | cons c d2' =>
      rw [List.nil_append, List.cons_append] at he
      injection he with h3 _
      have h4 := h2 c (List.mem_cons_self c d2')
      rw [← h3] at h4
      exact absurd h4 (by decide)
  | cons c d1' ih =>
    intro d2 x y h1 h2 he
    cases d2 with
    | nil =>
      rw [List.nil_append, List.cons_append] at he
      injection he with h3 _
      have h4 := h1 c (List.mem_cons_self c d1')
      rw [h3] at h4
      exact absurd h4 (by decide)
    | cons e d2' =>
      simp only [List.cons_append] at he
      injection he with h3 h4
      subst h3
      rw [ih d2' x y (fun z hz => h1 z (List.mem_cons_of_mem c hz))
        (fun z hz => h2 z (List.mem_cons_of_mem c hz)) h4]

/-- Two placeholder tokens starting at the same position carry the same
chapter id. -/
theorem placeholder_same (a b : Nat) (t : Str)
    (ha : leadsWith (placeholderOf a) t = true)
    (hb : leadsWith (placeholderOf b) t = true) : a = b := by
  obtain ⟨u, rfl⟩ := (leadsWith_iff_append _ _).mp ha
  obtain ⟨w, hw⟩ := (leadsWith_iff_append _ _).mp hb
  have hS : "_CONTENT\x7d\x7d".toList = '_' :: "CONTENT\x7d\x7d".toList := rfl
  have ea : placeholderOf a ++ u =
      "\x7b\x7bCHAPTER_".toList ++ (natChars a ++ ('_' :: ("CONTENT\x7d\x7d".toList ++ u))) := by
    simp [placeholderOf, hS, List.append_assoc]
  have eb : placeholderOf b ++ w =
      "\x7b\x7bCHAPTER_".toList ++ (natChars b ++ ('_' :: ("CONTENT\x7d\x7d".toList ++ w))) := by
    simp [placeholderOf, hS, List.append_assoc]
  rw [ea, eb] at hw
  have hcan := List.append_cancel_left hw
  exact natChars_inj a b (digit_run_eq (natChars a) (natChars b) _ _
    (natChars_digits a) (natChars_digits b) hcan)

/-- A placeholder token is never empty. -/
theorem placeholderOf_ne_nil (n : Nat) : placeholderOf n ≠ [] := by
  rw [ph_cons]
  simp

/-- Resolution never fails (the only failure mode, a nested tuple entry,
is excluded by the parse invariant). -/
theorem resolveContent_isSome (cf : Nat → Option Str) (fr : String → Option Str)
    (ch : Chapter) : (resolveContent cf fr ch).isSome = true := by
  unfold resolveContent
  cases hc : cf ch.id with
  | some t => rfl
  | none =>
    unfold generateFromRaw
    rw [fragmentsParts_eq]
    rfl

/-- The chapter-substitution loop always succeeds, and every placeholder
of a chapter id outside the configuration survives it. -/
theorem substChapters_props (cf : Nat → Option Str) (fr : String → Option Str) :
    ∀ (chapters : List Chapter) (html : Str), ∃ out,
      substChapters cf fr html chapters = some out
      ∧ ∀ id : Nat, id ∉ chapters.map Chapter.id →
          occursIn (placeholderOf id) html = true →
          occursIn (placeholderOf id) out = true := by
  intro chapters
  induction chapters with
  | nil => intro html; exact ⟨html, rfl, fun id _ h => h⟩
  | cons ch rest ih =>
    intro html
    obtain ⟨content, hcontent⟩ :=
      Option.isSome_iff_exists.mp (resolveContent_isSome cf fr ch)
    obtain ⟨out, hout, hsurv⟩ := ih (replaceList (placeholderOf ch.id) content html)
    refine ⟨out, ?_, ?_⟩
    · unfold substChapters
      rw [hcontent]
      exact hout
    · intro id hid hocc
      have hne : id ≠ ch.id ∧ id ∉ rest.map Chapter.id := by
        simp only [List.map_cons, List.mem_cons, not_or] at hid
        exact hid
      refine hsurv id hne.2 ?_
      refine occursIn_replaceList (placeholderOf ch.id) (placeholderOf id) content
        (placeholderOf_ne_nil ch.id) ?_ ?_ html.length html (le_refl _) hocc
      · intro t ht i hi hq
        cases Nat.eq_zero_or_pos i with
        | inl h0 =>
          subst h0
          rw [List.drop_zero] at hq
          exact hne.1 (placeholder_same id ch.id t hq ht)
        | inr hpos => exact placeholder_no_inner ch.id id t i ht hpos hi hq
      · intro t ht i h0 hi hp
        exact placeholder_no_inner id ch.id t i ht h0 hi hp

/-- C8: `build` never aborts — for all inputs it returns the assembled
document together with the remaining-placeholder scan (the warning data)
and the document's length — and a placeholder token for a chapter id
absent from the configuration remains in the output. -/
theorem c8_build_warns_but_succeeds (template : Str) (chapters : List Chapter)
    (chapterFile : Nat → Option Str) (fragment : String → Option Str) :
    (build template chapters chapterFile fragment).isSome = true
    ∧ ∀ (html : Str) (warns : List Str) (len : Nat),
        build template chapters chapterFile fragment = some (html, warns, len) →
        warns = findPlaceholders html ∧ len = html.length
        ∧ ∀ id : Nat, id ∉ chapters.map Chapter.id →
            occursIn (placeholderOf id) template = true →
            occursIn (placeholderOf id) html = true := by
  obtain ⟨out, hout, hsurv⟩ := substChapters_props chapterFile fragment chapters template
  constructor
  · simp [build, hout]
  · intro html warns len heq
    rw [build, hout] at heq
    simp only [Option.map_some', Option.some.injEq, Prod.mk.injEq] at heq
    obtain ⟨h1, h2, h3⟩ := heq
    subst h1
    exact ⟨h2.symm, h3.symm, hsurv⟩

/-- C8, witness: a template with placeholders for chapters 1 and 2 built
with only chapter 1 configured still succeeds, reports the chapter-2
token as remaining, and keeps it in the output. -/
theorem c8_build_warns_but_succeeds_witness :
    (build "A \x7b\x7bCHAPTER_1_CONTENT\x7d\x7d B \x7b\x7bCHAPTER_2_CONTENT\x7d\x7d".toList
        [⟨1, "T".toList, []⟩] (fun _ => none) (fun _ => none)).isSome = true
    ∧ occursIn (placeholderOf 2) "A <p>תוכן בקרוב...</p> B \x7b\x7bCHAPTER_2_CONTENT\x7d\x7d".toList
        = true :=
  ⟨(c8_build_warns_but_succeeds _ _ _ _).1,
   (((c8_build_warns_but_succeeds
        "A \x7b\x7bCHAPTER_1_CONTENT\x7d\x7d B \x7b\x7bCHAPTER_2_CONTENT\x7d\x7d".toList
        [⟨1, "T".toList, []⟩] (fun _ => none) (fun _ => none)).2
      "A <p>תוכן בקרוב...</p> B \x7b\x7bCHAPTER_2_CONTENT\x7d\x7d".toList
      ["\x7b\x7bCHAPTER_2_CONTENT\x7d\x7d".toList] 46 (by decide)).2.2
    2 (by decide) (by decide))⟩
